import Mathlib

/-!
Verification of the "Ultimate Puzzle" brute-force tile solver
(`solver.py`).  The Python source is shallowly embedded below:

* a piece is its 4-character string `(north, east, south, west)`;
* a board cell holds either the placeholder `'_'` (modelled as `none`)
  or a placed oriented piece (`some p`);
* the dictionary `«matches»` becomes a `Char → Option Char` function, a
  failed lookup (Python `KeyError`) being `none`;
* `check_piece_fits` returns `Option Bool`: `none` models the
  `KeyError` raised when a constrained side of the candidate carries a
  symbol outside the alphabet (the short-circuit evaluation order of
  the Python `and`/`or` chains is preserved);
* the generator `solve` becomes a fuel-indexed loop over an explicit
  worklist; the fuel supplied by the `solve` wrapper is an upper bound
  on the number of loop iterations (proved sufficient below), and the
  outcome distinguishes normal exhaustion of the frontier from a run
  that dies with an uncaught exception.
-/

/-- A puzzle piece: the four edge symbols in the order
north, east, south, west (the Python 4-character string). -/
structure Piece where
  n : Char
  e : Char
  s : Char
  w : Char
deriving DecidableEq

/-- The `«matches»` dictionary: the complementary-symbol pairing of the
eight-letter alphabet.  A lookup outside the alphabet is `none`
(Python raises `KeyError`). -/
def «matches» (c : Char) : Option Char :=
  if c = 'A' then some 'B'
  else if c = 'B' then some 'A'
  else if c = 'C' then some 'D'
  else if c = 'D' then some 'C'
  else if c = 'E' then some 'F'
  else if c = 'F' then some 'E'
  else if c = 'G' then some 'H'
  else if c = 'H' then some 'G'
  else none

/-- `rotate_piece`: `piece[1:] + piece[0]`, the cyclic left shift. -/
def rotate_piece (piece : Piece) : Piece :=
  ⟨piece.e, piece.s, piece.w, piece.n⟩

/-- `flip_piece`: `piece[0] + piece[3] + piece[2] + piece[1]`,
swapping the east and west edges. -/
def flip_piece (piece : Piece) : Piece :=
  ⟨piece.n, piece.w, piece.s, piece.e⟩

/-- `orientations`: the input, its three further rotations, the flip of
the input, and the flip's three further rotations (8 values, duplicates
retained). -/
def orientations (piece : Piece) : List Piece :=
  let r1 := rotate_piece piece
  let r2 := rotate_piece r1
  let r3 := rotate_piece r2
  let f0 := flip_piece piece
  let f1 := rotate_piece f0
  let f2 := rotate_piece f1
  let f3 := rotate_piece f2
  [piece, r1, r2, r3, f0, f1, f2, f3]

/-- Numeric key whose order is exactly the lexicographic order on the
4 code points, i.e. Python's string comparison: the four code points
read as base-1114112 digits (1114112 = 0x110000 bounds every scalar
value).  `pieceLt_iff_lex` below proves the correspondence. -/
def pkey (p : Piece) : Nat :=
  ((p.n.toNat * 1114112 + p.e.toNat) * 1114112 + p.s.toNat) * 1114112 + p.w.toNat

/-- Python string `<` on two 4-character pieces. -/
def pieceLt (p q : Piece) : Bool :=
  pkey p < pkey q

/-- `piece_identity`: `sorted(orientations(piece))[0]`, the
lexicographically least orientation. -/
def piece_identity (piece : Piece) : Piece :=
  (orientations piece).foldl (fun acc q => if pieceLt q acc then q else acc) piece

/-- A board cell: `none` is the `'_'` placeholder, `some p` a placed
oriented piece. -/
abbrev Cell := Option Piece

/-- The board: a list of rows of cells. -/
abbrev Board := List (List Cell)

/-- `board[y][x]` (out-of-range reads give the empty cell; every read
performed by the embedded code is guarded in range). -/
def getCell (board : Board) (x y : Nat) : Cell :=
  (board.getD y []).getD x none

/-- `nboard = list(map(list, board)); nboard[y][x] = piece`: the fresh
structural copy with one cell set. -/
def setCell (board : Board) (x y : Nat) (piece : Piece) : Board :=
  board.set y ((board.getD y []).set x (some piece))

/-- One edge test of `check_piece_fits`: boundary and empty-neighbor
cases short-circuit to `True` before the `«matches»` lookup; a lookup on
a symbol outside the alphabet is the `KeyError` (`none`). -/
def fit_clause (boundary : Bool) (neighbor : Cell) (edge : Char) (nedge : Piece → Char) : Option Bool :=
  if boundary then some true
  else
    match neighbor with
    | none => some true
    | some q => («matches» edge).map (fun m => nedge q == m)

/-- `check_piece_fits(board, piece, x, y)`: the conjunction of the
north, east, south and west clauses, evaluated in that order with
Python's short-circuiting (`some false` stops the chain, `none` is an
uncaught `KeyError`). -/
def check_piece_fits (board : Board) (piece : Piece) (x y : Nat) : Option Bool :=
  match fit_clause (y == 0) (getCell board x (y - 1)) piece.n Piece.s with
  | none => none
  | some false => some false
  | some true =>
    match fit_clause (x == (board.getD y []).length - 1) (getCell board (x + 1) y) piece.e Piece.w with
    | none => none
    | some false => some false
    | some true =>
      match fit_clause (y == board.length - 1) (getCell board x (y + 1)) piece.s Piece.n with
      | none => none
      | some false => some false
      | some true =>
        fit_clause (x == 0) (getCell board (x - 1) y) piece.w Piece.e

/-- Scan of one row for the first `'_'` cell. -/
def next_free_row : List Cell → Option Nat
  | [] => none
  | none :: _ => some 0
  | some _ :: rest => (next_free_row rest).map (fun x => x + 1)

/-- `next_free(board)`: row-major scan for the first empty cell,
returning `(x, y)`; `none` is Python's implicit `None` on a full
board. -/
def next_free : Board → Option (Nat × Nat)
  | [] => none
  | row :: rest =>
    match next_free_row row with
    | some x => some (x, 0)
    | none => (next_free rest).map (fun p => (p.1, p.2 + 1))

/-- `next_piece(pieces)`: each piece paired with the pool minus that
occurrence, in pool order. -/
def next_piece : List Piece → List (Piece × List Piece)
  | [] => []
  | p :: rest => (p, rest) :: (next_piece rest).map (fun q => (q.1, p :: q.2))

/-- The inner loop of `possible_moves` over the orientations of one
candidate pool piece: the children generated before a `KeyError`, and
whether the iteration finished without one. -/
def orientsAux (board : Board) (x y : Nat) (npieces : List Piece) :
    List Piece → List (Board × List Piece) × Bool
  | [] => ([], true)
  | q :: qs =>
    match check_piece_fits board q x y with
    | none => ([], false)
    | some true =>
      let rest := orientsAux board x y npieces qs
      ((setCell board x y q, npieces) :: rest.1, rest.2)
    | some false => orientsAux board x y npieces qs

/-- The outer loop of `possible_moves` over `next_piece(pieces)`. -/
def movesAux (board : Board) (x y : Nat) :
    List (Piece × List Piece) → List (Board × List Piece) × Bool
  | [] => ([], true)
  | pr :: rest =>
    let first := orientsAux board x y pr.2 (orientations pr.1)
    if first.2 then
      let more := movesAux board x y rest
      (first.1 ++ more.1, more.2)
    else
      (first.1, false)

/-- `possible_moves(board, pieces)`: the children of a search state in
generation order, plus whether the generator ran to completion
(`false` models the `TypeError` on a full board or a `KeyError` inside
`check_piece_fits`; the children generated before the exception were
already consumed by the caller). -/
def possible_moves (board : Board) (pieces : List Piece) :
    List (Board × List Piece) × Bool :=
  match next_free board with
  | none => ([], false)
  | some xy => movesAux board xy.1 xy.2 (next_piece pieces)

/-- `accept(board, pieces)`: a state is a solution when its pool is
empty. -/
def accept (_board : Board) (pieces : List Piece) : Bool :=
  pieces.length == 0

/-- The mutable state of `solve`'s loop: the worklist (head = top of
the depth-first stack), the best-partial-progress tracker
`(min_board, min_pieces)`, the explored counter, and the solutions
yielded so far as `(board, n_explored, len(worklist))` tuples. -/
structure LoopState where
  worklist : List (Board × List Piece)
  min_board : Board
  min_pieces : List Piece
  n_explored : Nat
  found : List (Board × Nat × Nat)
deriving DecidableEq

/-- The body of `solve`'s `for nboard, npieces in possible_moves(...)`
loop: bump the counter, yield accepted children (skipping push and
tracker), push the rest and update the tracker on `<=`. -/
def processChildren : List (Board × List Piece) → LoopState → LoopState
  | [], st => st
  | (nb, nps) :: cs, st =>
    let nexp := st.n_explored + 1
    if accept nb nps then
      processChildren cs
        { st with
          n_explored := nexp
          found := st.found ++ [(nb, nexp, st.worklist.length)] }
    else
      let pushed :=
        { st with
          worklist := (nb, nps) :: st.worklist
          n_explored := nexp }
      if nps.length ≤ st.min_pieces.length then
        processChildren cs { pushed with min_board := nb, min_pieces := nps }
      else
        processChildren cs pushed

/-- One iteration of `solve`'s `while worklist` loop on the popped
state `(wb, wps)` (already removed from `st.worklist`): process every
generated child, and report whether the generator finished without an
exception. -/
def solve_step (wb : Board) (wps : List Piece) (st : LoopState) : LoopState × Bool :=
  let pm := possible_moves wb wps
  (processChildren pm.1 st, pm.2)

/-- How a run of `solve` ended: frontier exhausted normally, died with
an uncaught exception, or (for the fuel-indexed model only) ran out of
fuel. -/
inductive SolveOutcome where
  | finished
  | crashed
  | fuelOut
deriving DecidableEq

/-- The `while worklist:` loop of `solve`, indexed by fuel. -/
def solveFuel (fuel : Nat) (st : LoopState) : LoopState × SolveOutcome :=
  match st.worklist with
  | [] => (st, SolveOutcome.finished)
  | (wb, wps) :: rest =>
    match fuel with
    | 0 => (st, SolveOutcome.fuelOut)
    | fuel' + 1 =>
      let step := solve_step wb wps { st with worklist := rest }
      if step.2 then solveFuel fuel' step.1 else (step.1, SolveOutcome.crashed)

/-- Weight of a pool of `n` pieces: an upper bound (strictly) on the
total number of loop iterations a state with `n` remaining pieces can
cause, used as fuel. -/
def pw : Nat → Nat
  | 0 => 1
  | n + 1 => 8 * (n + 1) * pw n + 1

/-- Total weight of a worklist. -/
def measureWL (wl : List (Board × List Piece)) : Nat :=
  (wl.map (fun s => pw s.2.length)).sum

/-- Initial loop state of `solve(board, pieces)`. -/
def initState (board : Board) (pieces : List Piece) : LoopState :=
  { worklist := [(board, pieces)]
    min_board := board
    min_pieces := pieces
    n_explored := 0
    found := [] }

/-- `solve(board, pieces)`, run to completion: the final loop state
(its `found` field lists every yielded solution tuple in order) and
the way the run ended.  The fuel is proved sufficient below
(`solveFuel_finished`), so `fuelOut` never actually occurs. -/
def solve (board : Board) (pieces : List Piece) : LoopState × SolveOutcome :=
  solveFuel (measureWL [(board, pieces)]) (initState board pieces)

/-- The boards of the solutions yielded so far. -/
def found_boards (st : LoopState) : List Board :=
  st.found.map (fun f => f.1)

/-- The loop states reachable during `solve board pieces`: the initial
state, and the result of expanding the top of the worklist of a
reachable state. -/
inductive Reachable (board : Board) (pieces : List Piece) : LoopState → Prop
  | init : Reachable board pieces (initState board pieces)
  | step {st : LoopState} {wb : Board} {wps : List Piece} {rest : List (Board × List Piece)} :
      Reachable board pieces st →
      st.worklist = (wb, wps) :: rest →
      Reachable board pieces (solve_step wb wps { st with worklist := rest }).1

/-! ### Specification-side predicates

These definitions formalise the vocabulary of the specification's
claims (valid tilings, full boards, alphabet membership); they are not
part of the embedded program. -/

/-- All four edge symbols of a piece lie in the eight-letter alphabet
(every `«matches»` lookup on them succeeds). -/
def alphaPiece (p : Piece) : Bool :=
  («matches» p.n).isSome && («matches» p.e).isSome &&
    («matches» p.s).isSome && («matches» p.w).isSome

/-- Number of empty cells in one row. -/
def count_empty_row : List Cell → Nat
  | [] => 0
  | none :: cs => count_empty_row cs + 1
  | some _ :: cs => count_empty_row cs

/-- Number of empty cells on the board. -/
def count_empty : Board → Nat
  | [] => 0
  | r :: rs => count_empty_row r + count_empty rs

/-- Every cell of the board holds a placed piece. -/
def board_full (b : Board) : Bool :=
  b.all (fun r => r.all (fun c => c.isSome))

/-- Bounded check that every pair of orthogonally adjacent placed
pieces has complementary touching edge symbols (east/west between
horizontal neighbors, south/north between vertical neighbors). -/
def edges_okb (b : Board) : Bool :=
  (List.range b.length).all (fun y =>
    (List.range (b.getD y []).length).all (fun x =>
      (match getCell b x y, getCell b (x + 1) y with
       | some p, some r => «matches» p.e == some r.w
       | _, _ => true) &&
      (match getCell b x y, getCell b x (y + 1) with
       | some p, some r => «matches» p.s == some r.n
       | _, _ => true)))

/-- Pointwise form of `edges_okb`. -/
def edges_pt (b : Board) : Prop :=
  (∀ x y p r, getCell b x y = some p → getCell b (x + 1) y = some r →
    «matches» p.e = some r.w) ∧
  (∀ x y p r, getCell b x y = some p → getCell b x (y + 1) = some r →
    «matches» p.s = some r.n)

/-- A cell of the starting board is respected by the completed board:
it was empty, or it carries the same placed piece. -/
def cell_agree (c d : Cell) : Prop :=
  c = none ∨ d = c

/-- The pieces a completed row `t` places on the cells left empty by
the starting row `b`, in left-to-right order. -/
def new_cells_row : List Cell → List Cell → List Piece
  | [], _ => []
  | _ :: _, [] => []
  | none :: bs, some q :: ts => q :: new_cells_row bs ts
  | none :: bs, none :: ts => new_cells_row bs ts
  | some _ :: bs, _ :: ts => new_cells_row bs ts

/-- The pieces a completed board `t` places on the cells left empty by
the starting board `b`, in row-major order. -/
def new_cells : Board → Board → List Piece
  | [], _ => []
  | _ :: _, [] => []
  | br :: bs, tr :: ts => new_cells_row br tr ++ new_cells bs ts

/-- `Completes T b ps`: the board `T` is a complete valid tiling
reachable from the search state `(b, ps)` — it has the shape of `b`,
keeps every piece already placed on `b`, is completely filled, all
touching edges are complementary under `«matches»`, and the pieces it
puts on the empty cells of `b` are orientations of the pool pieces
`ps`, each pool piece used exactly once. -/
def Completes (T b : Board) (ps : List Piece) : Prop :=
  List.Forall₂ (List.Forall₂ cell_agree) b T ∧
  board_full T = true ∧
  edges_okb T = true ∧
  ∃ qs : List Piece,
    List.Forall₂ (fun t p => t ∈ orientations p) (new_cells b T) qs ∧
    qs.Perm ps

/-- One step of the running minimum in `piece_identity`. -/
def min_step (acc q : Piece) : Piece :=
  if pieceLt q acc then q else acc

/-- Invariant for exhaustiveness and termination: the pool symbols are
in the alphabet, the pool is no larger than the number of empty cells,
and the board still has an empty cell. -/
def GoodState (s : Board × List Piece) : Prop :=
  (∀ p ∈ s.2, alphaPiece p = true) ∧
    s.2.length ≤ count_empty s.1 ∧ 1 ≤ count_empty s.1

/-- Invariant for soundness: all placed pieces have complementary
touching edges and the pool is exactly as large as the number of empty
cells. -/
def SoundState (s : Board × List Piece) : Prop :=
  edges_pt s.1 ∧ count_empty s.1 = s.2.length

/-- What the specification promises about every yielded solution
tuple: a completely filled board, all touching edges complementary. -/
def GoodFound (f : Board × Nat × Nat) : Prop :=
  board_full f.1 = true ∧ edges_okb f.1 = true

/-! ### Character and key arithmetic -/

/-- Every Unicode scalar value is below 0x110000 = 1114112. -/
lemma char_toNat_lt (c : Char) : c.toNat < 1114112 := by
  have h := c.valid
  rcases h with h | ⟨h1, h2⟩
  · exact Nat.lt_trans h (by norm_num)
  · exact h2

/-- Code points determine characters. -/
lemma char_toNat_inj {a b : Char} (h : a.toNat = b.toNat) : a = b :=
  Char.eq_of_val_eq (UInt32.toNat.inj h)

/-- The base-1114112 key is injective on pieces. -/
lemma pkey_inj {p q : Piece} (h : pkey p = pkey q) : p = q := by
  obtain ⟨a1, a2, a3, a4⟩ := p
  obtain ⟨b1, b2, b3, b4⟩ := q
  unfold pkey at h
  simp only at h
  have ha1 := char_toNat_lt a1
  have ha2 := char_toNat_lt a2
  have ha3 := char_toNat_lt a3
  have ha4 := char_toNat_lt a4
  have hb1 := char_toNat_lt b1
  have hb2 := char_toNat_lt b2
  have hb3 := char_toNat_lt b3
  have hb4 := char_toNat_lt b4
  have e1 : a1.toNat = b1.toNat := by omega
  have e2 : a2.toNat = b2.toNat := by omega
  have e3 : a3.toNat = b3.toNat := by omega
  have e4 : a4.toNat = b4.toNat := by omega
  have := char_toNat_inj e1
  have := char_toNat_inj e2
  have := char_toNat_inj e3
  have := char_toNat_inj e4
  subst_vars
  rfl

/-- `pieceLt` is exactly the lexicographic comparison of the four code
points, i.e. Python's string comparison on 4-character strings. -/
lemma pieceLt_iff_lex (p q : Piece) : pieceLt p q = true ↔
    (p.n.toNat < q.n.toNat ∨ (p.n.toNat = q.n.toNat ∧
      (p.e.toNat < q.e.toNat ∨ (p.e.toNat = q.e.toNat ∧
        (p.s.toNat < q.s.toNat ∨ (p.s.toNat = q.s.toNat ∧
          p.w.toNat < q.w.toNat)))))) := by
  have ha1 := char_toNat_lt p.n
  have ha2 := char_toNat_lt p.e
  have ha3 := char_toNat_lt p.s
  have ha4 := char_toNat_lt p.w
  have hb1 := char_toNat_lt q.n
  have hb2 := char_toNat_lt q.e
  have hb3 := char_toNat_lt q.s
  have hb4 := char_toNat_lt q.w
  simp only [pieceLt, pkey, decide_eq_true_eq]
  omega

/-! ### The fold computing the lexicographic minimum -/

lemma piece_identity_eq_fold (p : Piece) :
    piece_identity p = (orientations p).foldl min_step p := rfl

lemma pkey_min_step_le_left (acc q : Piece) : pkey (min_step acc q) ≤ pkey acc := by
  by_cases h : pkey q < pkey acc
  · simp only [min_step, pieceLt, h, decide_eq_true_eq, if_pos]
    omega
  · simp [min_step, pieceLt, h]

lemma pkey_min_step_le_right (acc q : Piece) : pkey (min_step acc q) ≤ pkey q := by
  by_cases h : pkey q < pkey acc
  · simp [min_step, pieceLt, h]
  · simp only [min_step, pieceLt, h]
    simp only [decide_eq_true_eq, h, if_false]
    omega

lemma min_step_cases (acc q : Piece) : min_step acc q = acc ∨ min_step acc q = q := by
  by_cases h : pkey q < pkey acc <;> simp [min_step, pieceLt, h]

lemma foldl_min_mem : ∀ (l : List Piece) (a : Piece),
    l.foldl min_step a = a ∨ l.foldl min_step a ∈ l := by
  intro l
  induction l with
  | nil => intro a; left; rfl
  | cons b t ih =>
    intro a
    simp only [List.foldl_cons]
    rcases ih (min_step a b) with h | h
    · rw [h]
      rcases min_step_cases a b with h2 | h2
      · left; exact h2
      · right; rw [h2]; exact List.mem_cons_self _ _
    · right; exact List.mem_cons_of_mem _ h

lemma foldl_min_le_init : ∀ (l : List Piece) (a : Piece),
    pkey (l.foldl min_step a) ≤ pkey a := by
  intro l
  induction l with
  | nil => intro a; exact Nat.le_refl _
  | cons b t ih =>
    intro a
    simp only [List.foldl_cons]
    exact Nat.le_trans (ih (min_step a b)) (pkey_min_step_le_left a b)

lemma foldl_min_le_mem : ∀ (l : List Piece) (a x : Piece), x ∈ l →
    pkey (l.foldl min_step a) ≤ pkey x := by
  intro l
  induction l with
  | nil => intro a x hx; cases hx
  | cons b t ih =>
    intro a x hx
    simp only [List.foldl_cons]
    rcases List.mem_cons.mp hx with h | h
    · subst h
      exact Nat.le_trans (foldl_min_le_init t (min_step a x)) (pkey_min_step_le_right a x)
    · exact ih (min_step a b) x h

/-- The canonical identity is itself one of the 8 orientations. -/
lemma piece_identity_mem (p : Piece) : piece_identity p ∈ orientations p := by
  rw [piece_identity_eq_fold]
  rcases foldl_min_mem (orientations p) p with h | h
  · rw [h]; simp [orientations]
  · exact h

/-- The canonical identity is a lexicographic lower bound of the
orientation set. -/
lemma piece_identity_le (p : Piece) : ∀ x ∈ orientations p,
    pkey (piece_identity p) ≤ pkey x := by
  intro x hx
  rw [piece_identity_eq_fold]
  exact foldl_min_le_mem (orientations p) p x hx

/-- Two pieces whose orientation lists have the same members have the
same canonical identity. -/
lemma piece_identity_eq_of_mem_iff {p q : Piece}
    (h : ∀ x, x ∈ orientations p ↔ x ∈ orientations q) :
    piece_identity p = piece_identity q := by
  have h1 : pkey (piece_identity q) ≤ pkey (piece_identity p) :=
    piece_identity_le q _ ((h _).mp (piece_identity_mem p))
  have h2 : pkey (piece_identity p) ≤ pkey (piece_identity q) :=
    piece_identity_le p _ ((h _).mpr (piece_identity_mem q))
  exact pkey_inj (Nat.le_antisymm h2 h1)

/-- The orientation set is invariant when the base piece is replaced
by any of its orientations. -/
lemma orientations_mem_invariant {p q : Piece} (hq : q ∈ orientations p) :
    ∀ x, x ∈ orientations q ↔ x ∈ orientations p := by
  obtain ⟨a, b, c, d⟩ := p
  simp only [orientations, rotate_piece, flip_piece, List.mem_cons,
    List.not_mem_nil, or_false] at hq
  intro x
  rcases hq with h | h | h | h | h | h | h | h <;> subst h <;>
    simp only [orientations, rotate_piece, flip_piece, List.mem_cons,
      List.not_mem_nil, or_false] <;> tauto

/-! ### The complementary pairing -/

/-- The alphabet pairing is involutive: if `a` maps to `b` then `b`
maps back to `a`. -/
lemma matches_involutive {a b : Char} (h : «matches» a = some b) :
    «matches» b = some a := by
  unfold «matches» at h ⊢
  split_ifs at h <;> (injection h with h; subst h) <;> simp_all

/-! ### Cell access and update -/

lemma getD_row_out {b : Board} {y : Nat} (h : b.length ≤ y) :
    b.getD y [] = [] := by
  rw [List.getD_eq_getElem?_getD, List.getElem?_eq_none h]
  rfl

lemma getCell_out_row {b : Board} {x y : Nat} (h : b.length ≤ y) :
    getCell b x y = none := by
  unfold getCell
  rw [getD_row_out h]
  rfl

lemma getD_cell_out {r : List Cell} {x : Nat} (h : r.length ≤ x) :
    r.getD x none = none := by
  rw [List.getD_eq_getElem?_getD, List.getElem?_eq_none h]
  rfl

lemma getCell_out_col {b : Board} {x y : Nat} (h : (b.getD y []).length ≤ x) :
    getCell b x y = none := getD_cell_out h

lemma getCell_some_bounds {b : Board} {x y : Nat} {p : Piece}
    (h : getCell b x y = some p) : y < b.length ∧ x < (b.getD y []).length := by
  constructor
  · by_contra hy
    rw [getCell_out_row (Nat.le_of_not_lt hy)] at h
    cases h
  · by_contra hx
    rw [getCell_out_col (Nat.le_of_not_lt hx)] at h
    cases h

lemma setCell_length (b : Board) (x y : Nat) (q : Piece) :
    (setCell b x y q).length = b.length := List.length_set ..

lemma setCell_row {b : Board} {x y : Nat} {q : Piece} (hy : y < b.length) :
    (setCell b x y q).getD y [] = ((b.getD y []).set x (some q)) := by
  unfold setCell
  rw [List.getD_eq_getElem?_getD, List.getElem?_set_self (by simpa using hy)]
  rfl

lemma setCell_row_other {b : Board} {x y y' : Nat} {q : Piece} (hy : y' ≠ y) :
    (setCell b x y q).getD y' [] = b.getD y' [] := by
  unfold setCell
  rw [List.getD_eq_getElem?_getD, List.getElem?_set_ne (Ne.symm hy),
    ← List.getD_eq_getElem?_getD]

lemma getCell_set_self {b : Board} {x y : Nat} {q : Piece}
    (hy : y < b.length) (hx : x < (b.getD y []).length) :
    getCell (setCell b x y q) x y = some q := by
  unfold getCell
  rw [setCell_row hy, List.getD_eq_getElem?_getD,
    List.getElem?_set_self (by simpa using hx)]
  rfl

lemma getCell_set_other {b : Board} {x y x' y' : Nat} {q : Piece}
    (h : x' ≠ x ∨ y' ≠ y) :
    getCell (setCell b x y q) x' y' = getCell b x' y' := by
  by_cases hy : y' = y
  · subst hy
    rcases h with hx | hy
    · by_cases hyb : y' < b.length
      · unfold getCell
        rw [setCell_row hyb, List.getD_eq_getElem?_getD,
          List.getElem?_set_ne (Ne.symm hx), ← List.getD_eq_getElem?_getD]
      · unfold getCell setCell
        rw [List.set_eq_of_length_le (Nat.le_of_not_lt hyb)]
    · exact absurd rfl hy
  · unfold getCell
    rw [setCell_row_other hy]

/-! ### The row-major scan and empty-cell counting -/

lemma next_free_row_none_iff (r : List Cell) :
    next_free_row r = none ↔ count_empty_row r = 0 := by
  induction r with
  | nil => simp [next_free_row, count_empty_row]
  | cons c cs ih =>
    cases c with
    | none => simp [next_free_row, count_empty_row]
    | some p =>
      simp only [next_free_row, count_empty_row, Option.map_eq_none']
      exact ih

lemma count_empty_row_zero {r : List Cell} (h : count_empty_row r = 0) :
    ∀ x < r.length, r.getD x none ≠ none := by
  induction r with
  | nil => intro x hx; cases hx
  | cons c cs ih =>
    cases c with
    | none => cases h
    | some p =>
      intro x hx
      cases x with
      | zero => simp
      | succ x' =>
        simp only [List.getD_cons_succ]
        exact ih h x' (Nat.lt_of_succ_lt_succ hx)

lemma next_free_row_some {r : List Cell} {x : Nat} (h : next_free_row r = some x) :
    x < r.length ∧ r.getD x none = none ∧ ∀ x' < x, r.getD x' none ≠ none := by
  induction r generalizing x with
  | nil => cases h
  | cons c cs ih =>
    cases c with
    | none =>
      cases h
      refine ⟨Nat.succ_pos _, rfl, ?_⟩
      intro x' hx'
      cases hx'
    | some p =>
      simp only [next_free_row, Option.map_eq_some'] at h
      obtain ⟨x0, hx0, rfl⟩ := h
      obtain ⟨h1, h2, h3⟩ := ih hx0
      refine ⟨Nat.succ_lt_succ h1, h2, ?_⟩
      intro x' hx'
      cases x' with
      | zero => simp
      | succ x'' =>
        simp only [List.getD_cons_succ]
        exact h3 x'' (Nat.lt_of_succ_lt_succ hx')

lemma count_empty_row_set {r : List Cell} {x : Nat}
    (h : r.getD x none = none) (hx : x < r.length) (q : Piece) :
    count_empty_row (r.set x (some q)) + 1 = count_empty_row r := by
  induction r generalizing x with
  | nil => cases hx
  | cons c cs ih =>
    cases x with
    | zero =>
      cases c with
      | none => simp [count_empty_row]
      | some p => simp at h
    | succ x' =>
      simp only [List.getD_cons_succ] at h
      have := ih h (Nat.lt_of_succ_lt_succ hx)
      cases c with
      | none => simp only [List.set_cons_succ, count_empty_row]; omega
      | some p => simp only [List.set_cons_succ, count_empty_row]; omega

lemma next_free_none_iff (b : Board) :
    next_free b = none ↔ count_empty b = 0 := by
  induction b with
  | nil => simp [next_free, count_empty]
  | cons r rs ih =>
    simp only [next_free, count_empty]
    cases hr : next_free_row r with
    | some x => 
      simp only []
      constructor
      · intro h; cases h
      · intro h
        have h0 : count_empty_row r = 0 := by omega
        rw [(next_free_row_none_iff r).mpr h0] at hr
        cases hr
    | none =>
      have h0 : count_empty_row r = 0 := (next_free_row_none_iff r).mp hr
      simp only [h0, Option.map_eq_none', Nat.zero_add]
      exact ih

lemma next_free_some {b : Board} {x y : Nat} (h : next_free b = some (x, y)) :
    next_free_row (b.getD y []) = some x ∧ y < b.length ∧
      ∀ y' < y, count_empty_row (b.getD y' []) = 0 := by
  induction b generalizing y with
  | nil => cases h
  | cons r rs ih =>
    simp only [next_free] at h
    cases hr : next_free_row r with
    | some x0 =>
      rw [hr] at h
      cases h
      refine ⟨hr, Nat.succ_pos _, ?_⟩
      intro y' hy'
      cases hy'
    | none =>
      rw [hr] at h
      simp only [Option.map_eq_some'] at h
      obtain ⟨⟨x0, y0⟩, hxy, heq⟩ := h
      cases heq
      obtain ⟨h1, h2, h3⟩ := ih hxy
      refine ⟨h1, Nat.succ_lt_succ h2, ?_⟩
      intro y' hy'
      cases y' with
      | zero => exact (next_free_row_none_iff r).mp hr
      | succ y'' =>
        simp only [List.getD_cons_succ]
        exact h3 y'' (Nat.lt_of_succ_lt_succ hy')

/-- Full specification of `next_free`: the returned cell is in range,
empty, and is the first empty cell in row-major order. -/
lemma next_free_spec {b : Board} {x y : Nat} (h : next_free b = some (x, y)) :
    y < b.length ∧ x < (b.getD y []).length ∧ getCell b x y = none ∧
      (∀ x' < x, getCell b x' y ≠ none) ∧
      (∀ y' < y, ∀ x' < (b.getD y' []).length, getCell b x' y' ≠ none) := by
  obtain ⟨h1, h2, h3⟩ := next_free_some h
  obtain ⟨r1, r2, r3⟩ := next_free_row_some h1
  refine ⟨h2, r1, r2, r3, ?_⟩
  intro y' hy' x' hx'
  exact count_empty_row_zero (h3 y' hy') x' hx'

lemma count_empty_set {b : Board} {x y : Nat} {q : Piece}
    (hy : y < b.length) (hx : x < (b.getD y []).length)
    (h : getCell b x y = none) :
    count_empty (setCell b x y q) + 1 = count_empty b := by
  unfold getCell at h
  induction b generalizing y with
  | nil => cases hy
  | cons r rs ih =>
    cases y with
    | zero =>
      simp only [List.getD_cons_zero] at h hx
      unfold setCell
      simp only [List.getD_cons_zero, List.set_cons_zero, count_empty]
      have := count_empty_row_set h hx q
      omega
    | succ y' =>
      simp only [List.getD_cons_succ] at h hx
      unfold setCell
      simp only [List.getD_cons_succ, List.set_cons_succ, count_empty]
      have := ih (Nat.lt_of_succ_lt_succ hy) hx h
      unfold setCell at this
      omega

lemma board_full_iff_count (b : Board) :
    board_full b = true ↔ count_empty b = 0 := by
  induction b with
  | nil => simp [board_full, count_empty]
  | cons r rs ih =>
    simp only [board_full, count_empty, List.all_cons, Bool.and_eq_true]
    rw [board_full] at ih
    rw [ih]
    have hr : r.all (fun c => c.isSome) = true ↔ count_empty_row r = 0 := by
      induction r with
      | nil => simp [count_empty_row]
      | cons c cs ihr =>
        cases c with
        | none => simp [count_empty_row]
        | some p =>
          simp only [List.all_cons, Option.isSome_some, Bool.true_and, count_empty_row]
          exact ihr
    rw [hr]
    omega

/-! ### The fit test -/

lemma fit_clause_some_true_iff (boundary : Bool) (neighbor : Cell)
    (edge : Char) (nedge : Piece → Char) :
    fit_clause boundary neighbor edge nedge = some true ↔
      (boundary = true ∨ neighbor = none ∨
        ∃ q, neighbor = some q ∧ «matches» edge = some (nedge q)) := by
  unfold fit_clause
  cases boundary with
  | true => simp
  | false =>
    simp only [Bool.false_eq_true, if_false, false_or]
    cases neighbor with
    | none => simp
    | some q =>
      cases hm : «matches» edge with
      | none => simp [hm]
      | some m =>
        simp only [hm, Option.map_some', Option.some.injEq, beq_iff_eq]
        constructor
        · intro h
          exact Or.inr ⟨q, rfl, h.symm⟩
        · rintro (h | ⟨q', rfl, hm'⟩)
          · simp at h
          · exact hm'.symm

lemma fit_clause_ne_none {boundary : Bool} {neighbor : Cell}
    {edge : Char} {nedge : Piece → Char} (h : («matches» edge).isSome = true) :
    fit_clause boundary neighbor edge nedge ≠ none := by
  unfold fit_clause
  cases boundary <;> cases neighbor <;>
    cases hm : «matches» edge <;> simp_all

/-- `check_piece_fits` succeeds exactly when all four directional
clauses succeed. -/
lemma check_some_true_iff (board : Board) (piece : Piece) (x y : Nat) :
    check_piece_fits board piece x y = some true ↔
      (fit_clause (y == 0) (getCell board x (y - 1)) piece.n Piece.s = some true ∧
       fit_clause (x == (board.getD y []).length - 1) (getCell board (x + 1) y) piece.e Piece.w = some true ∧
       fit_clause (y == board.length - 1) (getCell board x (y + 1)) piece.s Piece.n = some true ∧
       fit_clause (x == 0) (getCell board (x - 1) y) piece.w Piece.e = some true) := by
  unfold check_piece_fits
  cases h1 : fit_clause (y == 0) (getCell board x (y - 1)) piece.n Piece.s with
  | none => simp [h1]
  | some b1 =>
    cases b1 with
    | false => simp [h1]
    | true =>
      simp only [h1, true_and]
      cases h2 : fit_clause (x == (board.getD y []).length - 1) (getCell board (x + 1) y) piece.e Piece.w with
      | none => simp [h2]
      | some b2 =>
        cases b2 with
        | false => simp [h2]
        | true =>
          simp only [h2, true_and]
          cases h3 : fit_clause (y == board.length - 1) (getCell board x (y + 1)) piece.s Piece.n with
          | none => simp [h3]
          | some b3 =>
            cases b3 with
            | false => simp [h3]
            | true => simp only [h3, true_and]

/-- On a piece whose symbols all lie in the alphabet, the fit test
cannot raise `KeyError`. -/
lemma check_ne_none {board : Board} {piece : Piece} {x y : Nat}
    (h : alphaPiece piece = true) : check_piece_fits board piece x y ≠ none := by
  unfold alphaPiece at h
  simp only [Bool.and_eq_true] at h
  obtain ⟨⟨⟨hn, he⟩, hs⟩, hw⟩ := h
  unfold check_piece_fits
  cases h1 : fit_clause (y == 0) (getCell board x (y - 1)) piece.n Piece.s with
  | none => exact absurd h1 (fit_clause_ne_none hn)
  | some b1 =>
    cases b1 with
    | false => simp
    | true =>
      cases h2 : fit_clause (x == (board.getD y []).length - 1) (getCell board (x + 1) y) piece.e Piece.w with
      | none => exact absurd h2 (fit_clause_ne_none he)
      | some b2 =>
        cases b2 with
        | false => simp
        | true =>
          cases h3 : fit_clause (y == board.length - 1) (getCell board x (y + 1)) piece.s Piece.n with
          | none => exact absurd h3 (fit_clause_ne_none hs)
          | some b3 =>
            cases b3 with
            | false => simp
            | true => exact fit_clause_ne_none hw

/-! ### Edge validity: bounded and pointwise forms -/

lemma edges_okb_iff_pt (b : Board) : edges_okb b = true ↔ edges_pt b := by
  unfold edges_okb edges_pt
  simp only [List.all_eq_true, List.mem_range, Bool.and_eq_true]
  constructor
  · intro h
    constructor
    · intro x y p r hp hr
      obtain ⟨hy, hx⟩ := getCell_some_bounds hp
      have := (h y hy x hx).1
      rw [hp, hr] at this
      simpa using this
    · intro x y p r hp hr
      obtain ⟨hy, hx⟩ := getCell_some_bounds hp
      have := (h y hy x hx).2
      rw [hp, hr] at this
      simpa using this
  · intro ⟨hh, hv⟩ y _hy x _hx
    constructor
    · cases hp : getCell b x y with
      | none => simp
      | some p =>
        cases hr : getCell b (x + 1) y with
        | none => simp
        | some r => simpa using hh x y p r hp hr
    · cases hp : getCell b x y with
      | none => simp
      | some p =>
        cases hr : getCell b x (y + 1) with
        | none => simp
        | some r => simpa using hv x y p r hp hr

/-- Placing a piece that passes the fit test at an empty in-range cell
keeps all touching edges complementary. -/
lemma edges_pt_setCell {b : Board} {x y : Nat} {q : Piece}
    (hpt : edges_pt b) (hy : y < b.length) (hx : x < (b.getD y []).length)
    (hchk : check_piece_fits b q x y = some true) :
    edges_pt (setCell b x y q) := by
  obtain ⟨hN, hE, hS, hW⟩ := (check_some_true_iff b q x y).mp hchk
  rw [fit_clause_some_true_iff] at hN hE hS hW
  constructor
  · -- horizontal pairs
    intro x0 y0 p r hp hr
    by_cases hcp : x0 = x ∧ y0 = y
    · obtain ⟨rfl, rfl⟩ := hcp
      rw [getCell_set_self hy hx] at hp
      injection hp with hp
      subst hp
      have hne : ¬(x0 + 1 = x0 ∧ y0 = y0) := by omega
      rw [getCell_set_other (by omega)] at hr
      rcases hE with hb | hn | ⟨q', hq', hmq⟩
      · -- boundary to the east: the neighbor cell is out of range
        have hxe : (b.getD y0 []).length ≤ x0 + 1 := by
          simp only [beq_iff_eq] at hb
          omega
        rw [getCell_out_col hxe] at hr
        cases hr
      · rw [hn] at hr; cases hr
      · rw [hq'] at hr
        injection hr with hr
        subst hr
        exact hmq
    · by_cases hcr : x0 + 1 = x ∧ y0 = y
      · obtain ⟨hx1, rfl⟩ := hcr
        subst hx1
        rw [getCell_set_self hy hx] at hr
        injection hr with hr
        subst hr
        rw [getCell_set_other (by omega)] at hp
        rcases hW with hb | hn | ⟨q', hq', hmq⟩
        · simp only [beq_iff_eq] at hb; omega
        · simp only [Nat.add_sub_cancel] at hn
          rw [hn] at hp; cases hp
        · simp only [Nat.add_sub_cancel] at hq'
          rw [hq'] at hp
          injection hp with hp
          subst hp
          exact matches_involutive hmq
      · rw [getCell_set_other (by omega)] at hp
        rw [getCell_set_other (by omega)] at hr
        exact hpt.1 x0 y0 p r hp hr
  · -- vertical pairs
    intro x0 y0 p r hp hr
    by_cases hcp : x0 = x ∧ y0 = y
    · obtain ⟨rfl, rfl⟩ := hcp
      rw [getCell_set_self hy hx] at hp
      injection hp with hp
      subst hp
      rw [getCell_set_other (by omega)] at hr
      rcases hS with hb | hn | ⟨q', hq', hmq⟩
      · -- boundary to the south: the neighbor cell is out of range
        have hye : b.length ≤ y0 + 1 := by
          simp only [beq_iff_eq] at hb
          omega
        rw [getCell_out_row hye] at hr
        cases hr
      · rw [hn] at hr; cases hr
      · rw [hq'] at hr
        injection hr with hr
        subst hr
        exact hmq
    · by_cases hcr : x0 = x ∧ y0 + 1 = y
      · obtain ⟨rfl, hy1⟩ := hcr
        subst hy1
        rw [getCell_set_self hy hx] at hr
        injection hr with hr
        subst hr
        rw [getCell_set_other (by omega)] at hp
        rcases hN with hb | hn | ⟨q', hq', hmq⟩
        · simp only [beq_iff_eq] at hb; omega
        · simp only [Nat.add_sub_cancel] at hn
          rw [hn] at hp; cases hp
        · simp only [Nat.add_sub_cancel] at hq'
          rw [hq'] at hp
          injection hp with hp
          subst hp
          exact matches_involutive hmq
      · rw [getCell_set_other (by omega)] at hp
        rw [getCell_set_other (by omega)] at hr
        exact hpt.2 x0 y0 p r hp hr

/-! ### Candidate enumeration -/

lemma alpha_orientations {p q : Piece} (h : alphaPiece p = true)
    (hq : q ∈ orientations p) : alphaPiece q = true := by
  obtain ⟨a, b, c, d⟩ := p
  simp only [orientations, rotate_piece, flip_piece, List.mem_cons,
    List.not_mem_nil, or_false] at hq
  simp only [alphaPiece, Bool.and_eq_true] at h ⊢
  rcases hq with h' | h' | h' | h' | h' | h' | h' | h' <;> subst h' <;> simp_all

lemma orientations_length (p : Piece) : (orientations p).length = 8 := rfl

lemma next_piece_perm : ∀ (l : List Piece) (p : Piece) (l' : List Piece),
    (p, l') ∈ next_piece l → (p :: l').Perm l := by
  intro l
  induction l with
  | nil => intro p l' h; cases h
  | cons a t ih =>
    intro p l' h
    simp only [next_piece, List.mem_cons, List.mem_map] at h
    rcases h with h | ⟨⟨q, qs⟩, hmem, heq⟩
    · injection h with h1 h2
      subst h1; subst h2
      exact List.Perm.refl _
    · injection heq with h1 h2
      subst h1; subst h2
      have := ih q qs hmem
      exact List.Perm.trans (List.Perm.swap a q qs) (List.Perm.cons a this)

lemma next_piece_complete : ∀ (l : List Piece) (p : Piece), p ∈ l →
    (p, l.erase p) ∈ next_piece l := by
  intro l
  induction l with
  | nil => intro p h; cases h
  | cons a t ih =>
    intro p h
    by_cases hpa : a = p
    · subst hpa
      rw [List.erase_cons_head]
      simp [next_piece]
    · rcases List.mem_cons.mp h with h' | h'
      · exact absurd h'.symm hpa
      · rw [List.erase_cons_tail]
        · simp only [next_piece, List.mem_cons, List.mem_map]
          exact Or.inr ⟨(p, t.erase p), ih p h', rfl⟩
        · simp only [beq_iff_eq]
          exact fun hc => hpa hc

lemma next_piece_length : ∀ l : List Piece, (next_piece l).length = l.length := by
  intro l
  induction l with
  | nil => rfl
  | cons a t ih => simp [next_piece, ih]

lemma orientsAux_sound {b : Board} {x y : Nat} {nps : List Piece} :
    ∀ (l : List Piece) (c : Board × List Piece), c ∈ (orientsAux b x y nps l).1 →
      ∃ q ∈ l, check_piece_fits b q x y = some true ∧ c = (setCell b x y q, nps) := by
  intro l
  induction l with
  | nil => intro c h; cases h
  | cons q qs ih =>
    intro c h
    simp only [orientsAux] at h
    cases hc : check_piece_fits b q x y with
    | none => rw [hc] at h; cases h
    | some bv =>
      cases bv with
      | true =>
        rw [hc] at h
        simp only [List.mem_cons] at h
        rcases h with h | h
        · exact ⟨q, List.mem_cons_self _ _, hc, h⟩
        · obtain ⟨q', hq', hchk, hceq⟩ := ih c h
          exact ⟨q', List.mem_cons_of_mem _ hq', hchk, hceq⟩
      | false =>
        rw [hc] at h
        obtain ⟨q', hq', hchk, hceq⟩ := ih c h
        exact ⟨q', List.mem_cons_of_mem _ hq', hchk, hceq⟩

lemma orientsAux_flag {b : Board} {x y : Nat} {nps : List Piece} :
    ∀ l : List Piece, (∀ q ∈ l, check_piece_fits b q x y ≠ none) →
      (orientsAux b x y nps l).2 = true := by
  intro l
  induction l with
  | nil => intro _; rfl
  | cons q qs ih =>
    intro h
    simp only [orientsAux]
    cases hc : check_piece_fits b q x y with
    | none => exact absurd hc (h q (List.mem_cons_self _ _))
    | some bv =>
      cases bv with
      | true => exact ih (fun q' hq' => h q' (List.mem_cons_of_mem _ hq'))
      | false => exact ih (fun q' hq' => h q' (List.mem_cons_of_mem _ hq'))

lemma orientsAux_complete {b : Board} {x y : Nat} {nps : List Piece} :
    ∀ (l : List Piece), (∀ q' ∈ l, check_piece_fits b q' x y ≠ none) →
      ∀ q : Piece, q ∈ l →
      check_piece_fits b q x y = some true →
      (setCell b x y q, nps) ∈ (orientsAux b x y nps l).1 := by
  intro l
  induction l with
  | nil => intro _ q h; cases h
  | cons q0 qs ih =>
    intro hnc q hq hchk
    simp only [orientsAux]
    have hnc' : ∀ q' ∈ qs, check_piece_fits b q' x y ≠ none :=
      fun q' hq' => hnc q' (List.mem_cons_of_mem _ hq')
    rcases List.mem_cons.mp hq with h | h
    · subst h
      rw [hchk]
      exact List.mem_cons_self _ _
    · cases hc : check_piece_fits b q0 x y with
      | none => exact absurd hc (hnc q0 (List.mem_cons_self _ _))
      | some bv =>
        cases bv with
        | true => exact List.mem_cons_of_mem _ (ih hnc' q h hchk)
        | false => exact ih hnc' q h hchk

lemma orientsAux_length {b : Board} {x y : Nat} {nps : List Piece} :
    ∀ l : List Piece, (orientsAux b x y nps l).1.length ≤ l.length := by
  intro l
  induction l with
  | nil => exact Nat.le_refl _
  | cons q qs ih =>
    simp only [orientsAux]
    cases hc : check_piece_fits b q x y with
    | none => simp
    | some bv =>
      cases bv with
      | true => simpa using Nat.succ_le_succ ih
      | false => exact Nat.le_succ_of_le ih

lemma movesAux_sound {b : Board} {x y : Nat} :
    ∀ (prs : List (Piece × List Piece)) (c : Board × List Piece),
      c ∈ (movesAux b x y prs).1 →
      ∃ pr ∈ prs, ∃ q ∈ orientations pr.1,
        check_piece_fits b q x y = some true ∧ c = (setCell b x y q, pr.2) := by
  intro prs
  induction prs with
  | nil => intro c h; cases h
  | cons pr rest ih =>
    intro c h
    simp only [movesAux] at h
    by_cases hf : (orientsAux b x y pr.2 (orientations pr.1)).2 = true
    · rw [if_pos hf] at h
      simp only [List.mem_append] at h
      rcases h with h | h
      · obtain ⟨q, hq, hchk, hceq⟩ := orientsAux_sound _ c h
        exact ⟨pr, List.mem_cons_self _ _, q, hq, hchk, hceq⟩
      · obtain ⟨pr', hpr', hrest⟩ := ih c h
        exact ⟨pr', List.mem_cons_of_mem _ hpr', hrest⟩
    · rw [if_neg hf] at h
      obtain ⟨q, hq, hchk, hceq⟩ := orientsAux_sound _ c h
      exact ⟨pr, List.mem_cons_self _ _, q, hq, hchk, hceq⟩

lemma movesAux_flag {b : Board} {x y : Nat} :
    ∀ prs : List (Piece × List Piece),
      (∀ pr ∈ prs, ∀ q ∈ orientations pr.1, check_piece_fits b q x y ≠ none) →
      (movesAux b x y prs).2 = true := by
  intro prs
  induction prs with
  | nil => intro _; rfl
  | cons pr rest ih =>
    intro h
    simp only [movesAux]
    have hf : (orientsAux b x y pr.2 (orientations pr.1)).2 = true :=
      orientsAux_flag _ (h pr (List.mem_cons_self _ _))
    rw [if_pos hf]
    exact ih (fun pr' hpr' => h pr' (List.mem_cons_of_mem _ hpr'))

lemma movesAux_complete {b : Board} {x y : Nat} :
    ∀ prs : List (Piece × List Piece),
      (∀ pr' ∈ prs, ∀ q' ∈ orientations pr'.1, check_piece_fits b q' x y ≠ none) →
      ∀ pr ∈ prs, ∀ q ∈ orientations pr.1,
        check_piece_fits b q x y = some true →
        (setCell b x y q, pr.2) ∈ (movesAux b x y prs).1 := by
  intro prs
  induction prs with
  | nil => intro _ pr h; cases h
  | cons pr0 rest ih =>
    intro hnc pr hpr q hq hchk
    simp only [movesAux]
    have hf : (orientsAux b x y pr0.2 (orientations pr0.1)).2 = true :=
      orientsAux_flag _ (hnc pr0 (List.mem_cons_self _ _))
    rw [if_pos hf]
    simp only [List.mem_append]
    rcases List.mem_cons.mp hpr with h | h
    · subst h
      exact Or.inl (orientsAux_complete _ (hnc pr (List.mem_cons_self _ _)) q hq hchk)
    · exact Or.inr (ih (fun pr' hpr' => hnc pr' (List.mem_cons_of_mem _ hpr')) pr h q hq hchk)

lemma movesAux_length {b : Board} {x y : Nat} :
    ∀ prs : List (Piece × List Piece),
      (movesAux b x y prs).1.length ≤ 8 * prs.length := by
  intro prs
  induction prs with
  | nil => exact Nat.zero_le _
  | cons pr rest ih =>
    simp only [movesAux]
    have h8 : (orientsAux b x y pr.2 (orientations pr.1)).1.length ≤ 8 := by
      have := @orientsAux_length b x y pr.2 (orientations pr.1)
      rwa [orientations_length] at this
    by_cases hf : (orientsAux b x y pr.2 (orientations pr.1)).2 = true
    · rw [if_pos hf]
      simp only [List.length_append, List.length_cons]
      omega
    · rw [if_neg hf]
      simp only [List.length_cons]
      omega

/-- Soundness of `possible_moves`: every child places one orientation
of one pool piece on the first empty cell and removes that piece from
the pool. -/
lemma possible_moves_sound {b : Board} {ps : List Piece}
    {c : Board × List Piece} (h : c ∈ (possible_moves b ps).1) :
    ∃ x y, next_free b = some (x, y) ∧
      ∃ p l', (p, l') ∈ next_piece ps ∧
        ∃ q ∈ orientations p,
          check_piece_fits b q x y = some true ∧ c = (setCell b x y q, l') := by
  unfold possible_moves at h
  cases hnf : next_free b with
  | none => rw [hnf] at h; cases h
  | some xy =>
    rw [hnf] at h
    obtain ⟨x, y⟩ := xy
    obtain ⟨pr, hpr, q, hq, hchk, hceq⟩ := movesAux_sound _ c h
    exact ⟨x, y, rfl, pr.1, pr.2, hpr, q, hq, hchk, hceq⟩

/-- On an alphabet pool with a non-full board, the generator finishes
without an exception. -/
lemma possible_moves_flag {b : Board} {ps : List Piece} {xy : Nat × Nat}
    (hnf : next_free b = some xy) (ha : ∀ p ∈ ps, alphaPiece p = true) :
    (possible_moves b ps).2 = true := by
  unfold possible_moves
  rw [hnf]
  apply movesAux_flag
  intro pr hpr q hq
  have hp : pr.1 ∈ ps := by
    have := next_piece_perm ps pr.1 pr.2 (by simpa using hpr)
    exact this.mem_iff.mp (List.mem_cons_self _ _)
  exact check_ne_none (alpha_orientations (ha pr.1 hp) hq)

/-- Completeness of `possible_moves` on alphabet pools: every fitting
orientation of every pool piece is generated. -/
lemma possible_moves_complete {b : Board} {ps : List Piece}
    {x y : Nat} {p : Piece} {l' : List Piece} {q : Piece}
    (hnf : next_free b = some (x, y)) (ha : ∀ p' ∈ ps, alphaPiece p' = true)
    (hpr : (p, l') ∈ next_piece ps) (hq : q ∈ orientations p)
    (hchk : check_piece_fits b q x y = some true) :
    (setCell b x y q, l') ∈ (possible_moves b ps).1 := by
  unfold possible_moves
  rw [hnf]
  have hnc : ∀ pr' ∈ next_piece ps, ∀ q' ∈ orientations pr'.1,
      check_piece_fits b q' x y ≠ none := by
    intro pr' hpr' q' hq'
    have hp : pr'.1 ∈ ps := by
      have := next_piece_perm ps pr'.1 pr'.2 (by simpa using hpr')
      exact this.mem_iff.mp (List.mem_cons_self _ _)
    exact check_ne_none (alpha_orientations (ha pr'.1 hp) hq')
  exact movesAux_complete _ hnc (p, l') hpr q hq hchk

lemma possible_moves_length {b : Board} {ps : List Piece} :
    (possible_moves b ps).1.length ≤ 8 * ps.length := by
  unfold possible_moves
  cases hnf : next_free b with
  | none => simp
  | some xy =>
    have := @movesAux_length b xy.1 xy.2 (next_piece ps)
    rwa [next_piece_length] at this

/-! ### The solve loop: stepping lemmas -/

lemma solveFuel_empty {fuel : Nat} {st : LoopState} (h : st.worklist = []) :
    solveFuel fuel st = (st, SolveOutcome.finished) := by
  obtain ⟨wl, mb, mp, ne, fd⟩ := st
  simp only at h
  subst h
  cases fuel <;> rfl

lemma solveFuel_cons {fuel : Nat} {st : LoopState} {wb : Board}
    {wps : List Piece} {rest : List (Board × List Piece)}
    (h : st.worklist = (wb, wps) :: rest) :
    solveFuel (fuel + 1) st =
      (if (solve_step wb wps { st with worklist := rest }).2 then
        solveFuel fuel (solve_step wb wps { st with worklist := rest }).1
      else ((solve_step wb wps { st with worklist := rest }).1, SolveOutcome.crashed)) := by
  obtain ⟨wl, mb, mp, ne, fd⟩ := st
  simp only at h
  subst h
  rfl

lemma solveFuel_cons_zero {st : LoopState} {wb : Board}
    {wps : List Piece} {rest : List (Board × List Piece)}
    (h : st.worklist = (wb, wps) :: rest) :
    solveFuel 0 st = (st, SolveOutcome.fuelOut) := by
  obtain ⟨wl, mb, mp, ne, fd⟩ := st
  simp only at h
  subst h
  rfl

/-! ### The child-processing loop -/

lemma pc_worklist_super (cs : List (Board × List Piece)) (st : LoopState) :
    ∀ s ∈ st.worklist, s ∈ (processChildren cs st).worklist := by
  induction cs generalizing st with
  | nil => intro s hs; exact hs
  | cons c cs' ih =>
    obtain ⟨nb, nps⟩ := c
    intro s hs
    simp only [processChildren]
    by_cases hacc : accept nb nps = true
    · rw [if_pos hacc]
      exact ih _ s hs
    · rw [if_neg hacc]
      by_cases hmin : nps.length ≤ st.min_pieces.length
      · rw [if_pos hmin]
        exact ih _ s (List.mem_cons_of_mem _ hs)
      · rw [if_neg hmin]
        exact ih _ s (List.mem_cons_of_mem _ hs)

lemma pc_worklist_sound (cs : List (Board × List Piece)) (st : LoopState) :
    ∀ s ∈ (processChildren cs st).worklist,
      s ∈ st.worklist ∨ (s ∈ cs ∧ accept s.1 s.2 = false) := by
  induction cs generalizing st with
  | nil => intro s hs; exact Or.inl hs
  | cons c cs' ih =>
    obtain ⟨nb, nps⟩ := c
    intro s hs
    simp only [processChildren] at hs
    by_cases hacc : accept nb nps = true
    · rw [if_pos hacc] at hs
      rcases ih _ s hs with h | ⟨h1, h2⟩
      · exact Or.inl h
      · exact Or.inr ⟨List.mem_cons_of_mem _ h1, h2⟩
    · rw [if_neg hacc] at hs
      have key : ∀ st' : LoopState, st'.worklist = (nb, nps) :: st.worklist →
          s ∈ (processChildren cs' st').worklist →
          s ∈ st.worklist ∨ (s ∈ (nb, nps) :: cs' ∧ accept s.1 s.2 = false) := by
        intro st' hwl hmem
        rcases ih st' s hmem with h | ⟨h1, h2⟩
        · rw [hwl] at h
          rcases List.mem_cons.mp h with h' | h'
          · subst h'
            exact Or.inr ⟨List.mem_cons_self _ _, Bool.of_not_eq_true hacc⟩
          · exact Or.inl h'
        · exact Or.inr ⟨List.mem_cons_of_mem _ h1, h2⟩
      by_cases hmin : nps.length ≤ st.min_pieces.length
      · rw [if_pos hmin] at hs
        exact key _ rfl hs
      · rw [if_neg hmin] at hs
        exact key _ rfl hs

lemma pc_worklist_complete (cs : List (Board × List Piece)) (st : LoopState) :
    ∀ c ∈ cs, accept c.1 c.2 = false → c ∈ (processChildren cs st).worklist := by
  induction cs generalizing st with
  | nil => intro c hc; cases hc
  | cons c0 cs' ih =>
    obtain ⟨nb, nps⟩ := c0
    intro c hc hacc0
    simp only [processChildren]
    rcases List.mem_cons.mp hc with h | h
    · subst h
      have hacc0' : accept nb nps = false := hacc0
      rw [if_neg (by rw [hacc0']; exact Bool.false_ne_true)]
      by_cases hmin : nps.length ≤ st.min_pieces.length
      · rw [if_pos hmin]
        exact pc_worklist_super _ _ _ (List.mem_cons_self _ _)
      · rw [if_neg hmin]
        exact pc_worklist_super _ _ _ (List.mem_cons_self _ _)
    · by_cases hacc : accept nb nps = true
      · rw [if_pos hacc]
        exact ih _ c h hacc0
      · rw [if_neg hacc]
        by_cases hmin : nps.length ≤ st.min_pieces.length
        · rw [if_pos hmin]
          exact ih _ c h hacc0
        · rw [if_neg hmin]
          exact ih _ c h hacc0

lemma pc_found_super (cs : List (Board × List Piece)) (st : LoopState) :
    ∀ f ∈ st.found, f ∈ (processChildren cs st).found := by
  induction cs generalizing st with
  | nil => intro f hf; exact hf
  | cons c cs' ih =>
    obtain ⟨nb, nps⟩ := c
    intro f hf
    simp only [processChildren]
    by_cases hacc : accept nb nps = true
    · rw [if_pos hacc]
      exact ih _ f (by simp only [List.mem_append]; exact Or.inl hf)
    · rw [if_neg hacc]
      by_cases hmin : nps.length ≤ st.min_pieces.length
      · rw [if_pos hmin]; exact ih _ f hf
      · rw [if_neg hmin]; exact ih _ f hf

lemma pc_found_sound (cs : List (Board × List Piece)) (st : LoopState) :
    ∀ f ∈ (processChildren cs st).found,
      f ∈ st.found ∨ ∃ c ∈ cs, accept c.1 c.2 = true ∧ f.1 = c.1 := by
  induction cs generalizing st with
  | nil => intro f hf; exact Or.inl hf
  | cons c cs' ih =>
    obtain ⟨nb, nps⟩ := c
    intro f hf
    simp only [processChildren] at hf
    by_cases hacc : accept nb nps = true
    · rw [if_pos hacc] at hf
      rcases ih _ f hf with h | ⟨c', hc', h1, h2⟩
      · simp only [List.mem_append, List.mem_singleton] at h
        rcases h with h | h
        · exact Or.inl h
        · subst h
          exact Or.inr ⟨(nb, nps), List.mem_cons_self _ _, hacc, rfl⟩
      · exact Or.inr ⟨c', List.mem_cons_of_mem _ hc', h1, h2⟩
    · rw [if_neg hacc] at hf
      have key : ∀ st' : LoopState, f ∈ (processChildren cs' st').found →
          st'.found = st.found →
          f ∈ st.found ∨ ∃ c ∈ (nb, nps) :: cs', accept c.1 c.2 = true ∧ f.1 = c.1 := by
        intro st' hmem hfd
        rcases ih st' f hmem with h | ⟨c', hc', h1, h2⟩
        · rw [hfd] at h
          exact Or.inl h
        · exact Or.inr ⟨c', List.mem_cons_of_mem _ hc', h1, h2⟩
      by_cases hmin : nps.length ≤ st.min_pieces.length
      · rw [if_pos hmin] at hf
        exact key _ hf rfl
      · rw [if_neg hmin] at hf
        exact key _ hf rfl

lemma pc_found_complete (cs : List (Board × List Piece)) (st : LoopState) :
    ∀ c ∈ cs, accept c.1 c.2 = true →
      ∃ n k, (c.1, n, k) ∈ (processChildren cs st).found := by
  induction cs generalizing st with
  | nil => intro c hc; cases hc
  | cons c0 cs' ih =>
    obtain ⟨nb, nps⟩ := c0
    intro c hc hacc0
    simp only [processChildren]
    rcases List.mem_cons.mp hc with h | h
    · subst h
      rw [if_pos hacc0]
      refine ⟨st.n_explored + 1, st.worklist.length, ?_⟩
      apply pc_found_super
      simp
    · by_cases hacc : accept nb nps = true
      · rw [if_pos hacc]
        exact ih _ c h hacc0
      · rw [if_neg hacc]
        by_cases hmin : nps.length ≤ st.min_pieces.length
        · rw [if_pos hmin]
          exact ih _ c h hacc0
        · rw [if_neg hmin]
          exact ih _ c h hacc0

/-! ### Fuel accounting -/

lemma pw_pos (n : Nat) : 0 < pw n := by
  cases n with
  | zero => exact Nat.zero_lt_one
  | succ n' => simp [pw]

lemma measureWL_cons (b : Board) (ps : List Piece) (wl : List (Board × List Piece)) :
    measureWL ((b, ps) :: wl) = pw ps.length + measureWL wl := by
  simp [measureWL]

lemma list_sum_le (l : List (Board × List Piece)) (W : Nat)
    (h : ∀ c ∈ l, pw c.2.length ≤ W) :
    (l.map (fun c => pw c.2.length)).sum ≤ l.length * W := by
  induction l with
  | nil => simp
  | cons c cs ih =>
    simp only [List.map_cons, List.sum_cons, List.length_cons]
    have h1 := h c (List.mem_cons_self _ _)
    have h2 := ih (fun c' hc' => h c' (List.mem_cons_of_mem _ hc'))
    calc pw c.2.length + (cs.map (fun c => pw c.2.length)).sum
        ≤ W + cs.length * W := Nat.add_le_add h1 h2
      _ = (cs.length + 1) * W := by ring

lemma pc_measure (cs : List (Board × List Piece)) (st : LoopState) :
    measureWL (processChildren cs st).worklist ≤
      measureWL st.worklist + (cs.map (fun c => pw c.2.length)).sum := by
  induction cs generalizing st with
  | nil => simp [processChildren]
  | cons c cs' ih =>
    obtain ⟨nb, nps⟩ := c
    simp only [processChildren, List.map_cons, List.sum_cons]
    by_cases hacc : accept nb nps = true
    · rw [if_pos hacc]
      have := ih { st with
        n_explored := st.n_explored + 1
        found := st.found ++ [(nb, st.n_explored + 1, st.worklist.length)] }
      simp only at this
      omega
    · rw [if_neg hacc]
      by_cases hmin : nps.length ≤ st.min_pieces.length
      · rw [if_pos hmin]
        have := ih { st with
          worklist := (nb, nps) :: st.worklist
          n_explored := st.n_explored + 1
          min_board := nb
          min_pieces := nps }
        simp only [measureWL_cons] at this
        omega
      · rw [if_neg hmin]
        have := ih { st with
          worklist := (nb, nps) :: st.worklist
          n_explored := st.n_explored + 1 }
        simp only [measureWL_cons] at this
        omega

/-- Expanding a state strictly decreases the total worklist weight. -/
lemma step_measure_lt (wb : Board) (wps : List Piece) (st : LoopState) :
    measureWL (processChildren (possible_moves wb wps).1 st).worklist <
      pw wps.length + measureWL st.worklist := by
  have hsum : ((possible_moves wb wps).1.map (fun c => pw c.2.length)).sum < pw wps.length := by
    have hlen := @possible_moves_length wb wps
    cases hn : wps.length with
    | zero =>
      rw [hn] at hlen
      simp only [Nat.mul_zero, Nat.le_zero, List.length_eq_zero] at hlen
      rw [hlen]
      simp [pw_pos]
    | succ n' =>
      have hW : ∀ c ∈ (possible_moves wb wps).1, pw c.2.length ≤ pw n' := by
        intro c hc
        obtain ⟨x, y, _, p, l', hpr, q, _, _, hceq⟩ := possible_moves_sound hc
        have hperm := next_piece_perm wps p l' hpr
        have hl : l'.length + 1 = wps.length := by
          have := hperm.length_eq
          simpa using this
        have : c.2 = l' := by rw [hceq]
        rw [this]
        have : l'.length = n' := by omega
        rw [this]
      have h1 := list_sum_le _ _ hW
      have h2 : (possible_moves wb wps).1.length * pw n' ≤ 8 * (n' + 1) * pw n' :=
        Nat.mul_le_mul_right (pw n') (hn ▸ hlen)
      calc ((possible_moves wb wps).1.map (fun c => pw c.2.length)).sum
          ≤ 8 * (n' + 1) * pw n' := Nat.le_trans h1 h2
        _ < pw (n' + 1) := by simp [pw]
  calc measureWL (processChildren (possible_moves wb wps).1 st).worklist
      ≤ measureWL st.worklist + ((possible_moves wb wps).1.map (fun c => pw c.2.length)).sum :=
        pc_measure _ _
    _ < measureWL st.worklist + pw wps.length := Nat.add_lt_add_left hsum _
    _ = pw wps.length + measureWL st.worklist := Nat.add_comm _ _

/-! ### State invariants across expansion -/

lemma solve_step_eq (wb : Board) (wps : List Piece) (st : LoopState) :
    solve_step wb wps st =
      (processChildren (possible_moves wb wps).1 st, (possible_moves wb wps).2) := rfl

lemma next_free_isSome_of_count {b : Board} (h : 1 ≤ count_empty b) :
    ∃ xy, next_free b = some xy := by
  cases hnf : next_free b with
  | none =>
    have := (next_free_none_iff b).mp hnf
    omega
  | some xy => exact ⟨xy, rfl⟩

/-- Structure of every generated child of a state. -/
lemma child_shape {wb : Board} {wps : List Piece} {c : Board × List Piece}
    (hc : c ∈ (possible_moves wb wps).1) :
    (∀ p ∈ c.2, p ∈ wps) ∧ c.2.length + 1 = wps.length ∧
      count_empty c.1 + 1 = count_empty wb := by
  obtain ⟨x, y, hnf, p, l', hpr, q, _hq, _hchk, hceq⟩ := possible_moves_sound hc
  have hperm := next_piece_perm wps p l' hpr
  obtain ⟨hy, hx, hemp, -, -⟩ := next_free_spec hnf
  have hc2 : c.2 = l' := by rw [hceq]
  have hc1 : c.1 = setCell wb x y q := by rw [hceq]
  refine ⟨?_, ?_, ?_⟩
  · intro p' hp'
    rw [hc2] at hp'
    exact hperm.mem_iff.mp (List.mem_cons_of_mem _ hp')
  · rw [hc2]
    simpa using hperm.length_eq
  · rw [hc1]
    exact count_empty_set hy hx hemp

lemma good_flag {wb : Board} {wps : List Piece} (hg : GoodState (wb, wps)) :
    (possible_moves wb wps).2 = true := by
  obtain ⟨ha, _, hcnt⟩ := hg
  obtain ⟨xy, hnf⟩ := next_free_isSome_of_count hcnt
  exact possible_moves_flag hnf ha

lemma good_child {wb : Board} {wps : List Piece} {c : Board × List Piece}
    (hg : GoodState (wb, wps)) (hc : c ∈ (possible_moves wb wps).1)
    (hacc : accept c.1 c.2 = false) : GoodState c := by
  obtain ⟨ha, hle, hcnt⟩ := hg
  dsimp only at ha hle hcnt
  obtain ⟨hmem, hlen, hcount⟩ := child_shape hc
  have hne : c.2.length ≠ 0 := by
    intro h0
    rw [accept, h0] at hacc
    cases hacc
  refine ⟨fun p hp => ha p (hmem p hp), by omega, by omega⟩

lemma sound_child {wb : Board} {wps : List Piece} {c : Board × List Piece}
    (hs : SoundState (wb, wps)) (hc : c ∈ (possible_moves wb wps).1) :
    SoundState c := by
  obtain ⟨hpt, hcnt⟩ := hs
  obtain ⟨x, y, hnf, p, l', hpr, q, _hq, hchk, hceq⟩ := possible_moves_sound hc
  obtain ⟨hy, hx, hemp, -, -⟩ := next_free_spec hnf
  obtain ⟨-, hlen, hcount⟩ := child_shape hc
  have hc1 : c.1 = setCell wb x y q := by rw [hceq]
  constructor
  · rw [hc1]
    exact edges_pt_setCell hpt hy hx hchk
  · simp only at hcnt ⊢
    omega

/-- An accepted child is a completely filled, edge-valid board. -/
lemma sound_accepted {wb : Board} {wps : List Piece} {c : Board × List Piece}
    (hs : SoundState (wb, wps)) (hc : c ∈ (possible_moves wb wps).1)
    (hacc : accept c.1 c.2 = true) :
    board_full c.1 = true ∧ edges_okb c.1 = true := by
  have hsc := sound_child hs hc
  obtain ⟨hpt, hcnt⟩ := hsc
  have hz : c.2.length = 0 := by
    rw [accept] at hacc
    simpa using hacc
  constructor
  · rw [board_full_iff_count]
    omega
  · exact (edges_okb_iff_pt c.1).mpr hpt

/-! ### Master inductions over the loop -/

/-- With enough fuel and well-formed states, the loop empties its
frontier and reports normal termination. -/
lemma solveFuel_finished : ∀ (fuel : Nat) (st : LoopState),
    measureWL st.worklist ≤ fuel →
    (∀ s ∈ st.worklist, GoodState s) →
    (solveFuel fuel st).2 = SolveOutcome.finished := by
  intro fuel
  induction fuel with
  | zero =>
    intro st hm _
    cases hwl : st.worklist with
    | nil => rw [solveFuel_empty hwl]
    | cons s rest =>
      obtain ⟨wb, wps⟩ := s
      rw [hwl, measureWL_cons] at hm
      have := pw_pos wps.length
      omega
  | succ fuel' ih =>
    intro st hm hg
    cases hwl : st.worklist with
    | nil => rw [solveFuel_empty hwl]
    | cons s rest =>
      obtain ⟨wb, wps⟩ := s
      rw [solveFuel_cons hwl]
      have hgs : GoodState (wb, wps) := hg _ (hwl ▸ List.mem_cons_self _ _)
      rw [solve_step_eq]
      simp only [good_flag hgs, if_true]
      apply ih
      · have hlt := step_measure_lt wb wps { st with worklist := rest }
        rw [hwl, measureWL_cons] at hm
        simp only at hlt
        omega
      · intro s' hs'
        rcases pc_worklist_sound _ _ s' hs' with h | ⟨h1, h2⟩
        · exact hg s' (by rw [hwl]; exact List.mem_cons_of_mem _ h)
        · exact good_child hgs h1 h2

/-- Solutions are never removed: the found list only grows. -/
lemma solveFuel_found_super : ∀ (fuel : Nat) (st : LoopState),
    ∀ f ∈ st.found, f ∈ (solveFuel fuel st).1.found := by
  intro fuel
  induction fuel with
  | zero =>
    intro st f hf
    cases hwl : st.worklist with
    | nil => rw [solveFuel_empty hwl]; exact hf
    | cons s rest =>
      obtain ⟨wb, wps⟩ := s
      rw [solveFuel_cons_zero hwl]
      exact hf
  | succ fuel' ih =>
    intro st f hf
    cases hwl : st.worklist with
    | nil => rw [solveFuel_empty hwl]; exact hf
    | cons s rest =>
      obtain ⟨wb, wps⟩ := s
      rw [solveFuel_cons hwl, solve_step_eq]
      by_cases hfl : (possible_moves wb wps).2 = true
      · simp only [hfl, if_true]
        exact ih _ f (pc_found_super _ _ f hf)
      · simp only [Bool.not_eq_true] at hfl
        simp only [hfl, Bool.false_eq_true, if_false]
        exact pc_found_super _ _ f hf

/-- Soundness master: if every frontier state is sound and every
already-yielded tuple is good, then every tuple ever yielded is good,
whatever way the run ends. -/
lemma solveFuel_sound : ∀ (fuel : Nat) (st : LoopState),
    (∀ s ∈ st.worklist, SoundState s) →
    (∀ f ∈ st.found, GoodFound f) →
    ∀ f ∈ (solveFuel fuel st).1.found, GoodFound f := by
  intro fuel
  induction fuel with
  | zero =>
    intro st _hw hf f hmem
    cases hwl : st.worklist with
    | nil => rw [solveFuel_empty hwl] at hmem; exact hf f hmem
    | cons s rest =>
      obtain ⟨wb, wps⟩ := s
      rw [solveFuel_cons_zero hwl] at hmem
      exact hf f hmem
  | succ fuel' ih =>
    intro st hw hf f hmem
    cases hwl : st.worklist with
    | nil => rw [solveFuel_empty hwl] at hmem; exact hf f hmem
    | cons s rest =>
      obtain ⟨wb, wps⟩ := s
      have hws : SoundState (wb, wps) := hw _ (hwl ▸ List.mem_cons_self _ _)
      have hrest : ∀ s' ∈ rest, SoundState s' := by
        intro s' hs'
        exact hw s' (by rw [hwl]; exact List.mem_cons_of_mem _ hs')
      have hnext : ∀ f' ∈ (processChildren (possible_moves wb wps).1
          { st with worklist := rest }).found, GoodFound f' := by
        intro f' hf'
        rcases pc_found_sound _ _ f' hf' with h | ⟨c, hc, hacc, hfc⟩
        · exact hf f' h
        · obtain ⟨hfull, hedge⟩ := sound_accepted hws hc hacc
          exact ⟨hfc ▸ hfull, hfc ▸ hedge⟩
      have hwnext : ∀ s' ∈ (processChildren (possible_moves wb wps).1
          { st with worklist := rest }).worklist, SoundState s' := by
        intro s' hs'
        rcases pc_worklist_sound _ _ s' hs' with h | ⟨h1, _⟩
        · exact hrest s' h
        · exact sound_child hws h1
      rw [solveFuel_cons hwl, solve_step_eq] at hmem
      by_cases hfl : (possible_moves wb wps).2 = true
      · simp only [hfl, if_true] at hmem
        exact ih _ hwnext hnext f hmem
      · simp only [Bool.not_eq_true] at hfl
        simp only [hfl, Bool.false_eq_true, if_false] at hmem
        exact hnext f hmem

/-! ### Completions: agreement and new-cell bookkeeping -/

lemma getCell_cons_zero (r : List Cell) (rs : Board) (x : Nat) :
    getCell (r :: rs) x 0 = r.getD x none := rfl

lemma getCell_cons_succ (r : List Cell) (rs : Board) (x y : Nat) :
    getCell (r :: rs) x (y + 1) = getCell rs x y := rfl

lemma agree_row_getD : ∀ {br tr : List Cell}, List.Forall₂ cell_agree br tr →
    ∀ {x : Nat} {p : Piece}, br.getD x none = some p → tr.getD x none = some p := by
  intro br tr hag
  induction hag with
  | nil => intro x p h; simp at h
  | @cons c d bs ts hcd _hrest ih =>
    intro x p h
    cases x with
    | zero =>
      simp only [List.getD_cons_zero] at h ⊢
      rcases hcd with hc | hd
      · rw [hc] at h; cases h
      · rw [hd, h]
    | succ x' =>
      simp only [List.getD_cons_succ] at h ⊢
      exact ih h

lemma agree_getCell : ∀ {b T : Board},
    List.Forall₂ (List.Forall₂ cell_agree) b T →
    ∀ {x y : Nat} {p : Piece}, getCell b x y = some p → getCell T x y = some p := by
  intro b T hag
  induction hag with
  | nil => intro x y p h; rw [getCell_out_row (by simp)] at h; cases h
  | @cons br tr bs ts hrow _hrest ih =>
    intro x y p h
    cases y with
    | zero =>
      rw [getCell_cons_zero] at h ⊢
      exact agree_row_getD hrow h
    | succ y' =>
      rw [getCell_cons_succ] at h ⊢
      exact ih h

lemma agree_row_lengths : ∀ {b T : Board},
    List.Forall₂ (List.Forall₂ cell_agree) b T →
    ∀ y : Nat, (b.getD y []).length = (T.getD y []).length := by
  intro b T hag
  induction hag with
  | nil => intro y; rfl
  | @cons br tr bs ts hrow _hrest ih =>
    intro y
    cases y with
    | zero => simpa using hrow.length_eq
    | succ y' => simpa using ih y'

/-- A full board has a piece at every in-range position. -/
lemma full_getCell {T : Board} (h : board_full T = true) {x y : Nat}
    (hy : y < T.length) (hx : x < (T.getD y []).length) :
    ∃ q, getCell T x y = some q := by
  induction T generalizing y with
  | nil => cases hy
  | cons tr ts ih =>
    simp only [board_full, List.all_cons, Bool.and_eq_true] at h
    cases y with
    | zero =>
      simp only [List.getD_cons_zero] at hx
      rw [getCell_cons_zero]
      have hc : tr.getD x none ∈ tr := by
        rw [List.getD_eq_getElem?_getD, List.getElem?_eq_getElem hx]
        exact List.getElem_mem hx
      have := List.all_eq_true.mp h.1 _ hc
      cases hcell : tr.getD x none with
      | none => rw [hcell] at this; cases this
      | some q => exact ⟨q, rfl⟩
    | succ y' =>
      rw [getCell_cons_succ]
      refine ih ?_ (Nat.lt_of_succ_lt_succ hy) ?_
      · simp only [board_full]
        exact List.all_eq_true.mpr (fun r hr => List.all_eq_true.mp h.2 r hr)
      · simpa using hx

lemma new_cells_row_none {br : List Cell} (h : next_free_row br = none) :
    ∀ tr, new_cells_row br tr = [] := by
  induction br with
  | nil => intro tr; cases tr <;> rfl
  | cons c bs ih =>
    intro tr
    cases c with
    | none => cases h
    | some p =>
      simp only [next_free_row, Option.map_eq_none'] at h
      cases tr with
      | nil => rfl
      | cons d ts => simpa [new_cells_row] using ih h ts

/-- Filling the first empty cell of a row with the piece the completed
row holds there peels the head off the new-cell list and preserves
agreement. -/
lemma new_cells_row_head : ∀ {br tr : List Cell},
    List.Forall₂ cell_agree br tr → tr.all (fun c => c.isSome) = true →
    ∀ {x : Nat}, next_free_row br = some x →
    ∃ q, tr.getD x none = some q ∧
      new_cells_row br tr = q :: new_cells_row (br.set x (some q)) tr ∧
      List.Forall₂ cell_agree (br.set x (some q)) tr := by
  intro br tr hag
  induction hag with
  | nil => intro _ x h; cases h
  | @cons c d bs ts hcd hrest ih =>
    intro hfull x h
    simp only [List.all_cons, Bool.and_eq_true] at hfull
    cases c with
    | none =>
      cases h
      cases d with
      | none => cases hfull.1
      | some q =>
        refine ⟨q, rfl, ?_, ?_⟩
        · simp [new_cells_row]
        · exact List.Forall₂.cons (Or.inr rfl) hrest
    | some p =>
      simp only [next_free_row, Option.map_eq_some'] at h
      obtain ⟨x', hx', rfl⟩ := h
      obtain ⟨q, hq1, hq2, hq3⟩ := ih hfull.2 hx'
      cases ts with
      | nil => simp at hq1
      | cons d' ts' =>
        refine ⟨q, by simpa using hq1, ?_, ?_⟩
        · simp only [List.set_cons_succ]
          cases d with
          | none => simpa [new_cells_row] using hq2
          | some r => simpa [new_cells_row] using hq2
        · simp only [List.set_cons_succ]
          exact List.Forall₂.cons hcd hq3

/-- Filling the first empty cell of the board with the piece the
completed board holds there peels the head off the row-major new-cell
list and preserves agreement. -/
lemma setCell_cons_zero (r : List Cell) (rs : Board) (x : Nat) (q : Piece) :
    setCell (r :: rs) x 0 q = (r.set x (some q)) :: rs := by
  simp [setCell]

lemma setCell_cons_succ (r : List Cell) (rs : Board) (x y : Nat) (q : Piece) :
    setCell (r :: rs) x (y + 1) q = r :: setCell rs x y q := by
  simp [setCell]

lemma next_free_cons_some {br : List Cell} {bs : Board} {x0 : Nat}
    (h : next_free_row br = some x0) :
    next_free (br :: bs) = some (x0, 0) := by
  simp [next_free, h]

lemma next_free_cons_none {br : List Cell} {bs : Board}
    (h : next_free_row br = none) :
    next_free (br :: bs) = (next_free bs).map (fun p => (p.1, p.2 + 1)) := by
  simp [next_free, h]

lemma new_cells_head : ∀ {b T : Board},
    List.Forall₂ (List.Forall₂ cell_agree) b T → board_full T = true →
    ∀ {x y : Nat}, next_free b = some (x, y) →
    ∃ q, getCell T x y = some q ∧
      new_cells b T = q :: new_cells (setCell b x y q) T ∧
      List.Forall₂ (List.Forall₂ cell_agree) (setCell b x y q) T := by
  intro b T hag
  induction hag with
  | nil => intro _ x y h; cases h
  | @cons br tr bs ts hrow hrest ih =>
    intro hfull x y h
    simp only [board_full, List.all_cons, Bool.and_eq_true] at hfull
    cases hr : next_free_row br with
    | some x0 =>
      rw [next_free_cons_some hr] at h
      injection h with h
      injection h with h1 h2
      subst h1
      subst h2
      obtain ⟨q, hq1, hq2, hq3⟩ := new_cells_row_head hrow hfull.1 hr
      refine ⟨q, hq1, ?_, ?_⟩
      · rw [setCell_cons_zero]
        simp only [new_cells]
        rw [hq2]
        rfl
      · rw [setCell_cons_zero]
        exact List.Forall₂.cons hq3 hrest
    | none =>
      rw [next_free_cons_none hr] at h
      simp only [Option.map_eq_some'] at h
      obtain ⟨⟨x0, y0⟩, hxy, heq⟩ := h
      injection heq with h1 h2
      subst h1
      subst h2
      have hfull2 : board_full ts = true := by
        simp only [board_full]
        exact List.all_eq_true.mpr (fun r hrr => List.all_eq_true.mp hfull.2 r hrr)
      obtain ⟨q, hq1, hq2, hq3⟩ := ih hfull2 hxy
      refine ⟨q, by rwa [getCell_cons_succ], ?_, ?_⟩
      · rw [setCell_cons_succ]
        simp only [new_cells]
        rw [new_cells_row_none hr]
        simpa using hq2
      · rw [setCell_cons_succ]
        exact List.Forall₂.cons hrow hq3

lemma new_cells_row_nil_eq : ∀ {br tr : List Cell},
    List.Forall₂ cell_agree br tr → tr.all (fun c => c.isSome) = true →
    new_cells_row br tr = [] → br = tr := by
  intro br tr hag
  induction hag with
  | nil => intro _ _; rfl
  | @cons c d bs ts hcd hrest ih =>
    intro hfull hnc
    simp only [List.all_cons, Bool.and_eq_true] at hfull
    cases c with
    | none =>
      cases d with
      | none => cases hfull.1
      | some q => simp [new_cells_row] at hnc
    | some p =>
      rcases hcd with hc | hd
      · cases hc
      · have : new_cells_row bs ts = [] := by
          cases d <;> simpa [new_cells_row] using hnc
        rw [hd, ih hfull.2 this]

/-- A completion that places no new pieces is the starting board
itself. -/
lemma new_cells_nil_eq : ∀ {b T : Board},
    List.Forall₂ (List.Forall₂ cell_agree) b T → board_full T = true →
    new_cells b T = [] → b = T := by
  intro b T hag
  induction hag with
  | nil => intro _ _; rfl
  | @cons br tr bs ts hrow hrest ih =>
    intro hfull hnc
    simp only [board_full, List.all_cons, Bool.and_eq_true] at hfull
    have hsplit : new_cells_row br tr = [] ∧ new_cells bs ts = [] := by
      have : new_cells_row br tr ++ new_cells bs ts = [] := hnc
      exact List.append_eq_nil.mp this
    have hfull' : board_full ts = true := by
      simp only [board_full]
      exact List.all_eq_true.mpr (fun r hrr => List.all_eq_true.mp hfull.2 r hrr)
    rw [new_cells_row_nil_eq hrow hfull.1 hsplit.1, ih hfull' hsplit.2]

/-- A piece placed by a valid completion passes the fit test against
the partial board it extends. -/
lemma check_of_tiling {b T : Board} {x y : Nat} {q : Piece}
    (hag : List.Forall₂ (List.Forall₂ cell_agree) b T)
    (hpt : edges_pt T) (hq : getCell T x y = some q) :
    check_piece_fits b q x y = some true := by
  rw [check_some_true_iff]
  refine ⟨?_, ?_, ?_, ?_⟩
  · -- north
    rw [fit_clause_some_true_iff]
    by_cases hy0 : y = 0
    · exact Or.inl (by simp [hy0])
    · cases hn : getCell b x (y - 1) with
      | none => exact Or.inr (Or.inl rfl)
      | some nb =>
        refine Or.inr (Or.inr ⟨nb, rfl, ?_⟩)
        have hTn : getCell T x (y - 1) = some nb := agree_getCell hag hn
        have : «matches» nb.s = some q.n := by
          have := hpt.2 x (y - 1) nb q hTn (by rwa [Nat.sub_add_cancel (Nat.one_le_iff_ne_zero.mpr hy0)])
          exact this
        exact matches_involutive this
  · -- east
    rw [fit_clause_some_true_iff]
    cases he : getCell b (x + 1) y with
    | none => exact Or.inr (Or.inl rfl)
    | some eb =>
      refine Or.inr (Or.inr ⟨eb, rfl, ?_⟩)
      exact hpt.1 x y q eb hq (agree_getCell hag he)
  · -- south
    rw [fit_clause_some_true_iff]
    cases hs : getCell b x (y + 1) with
    | none => exact Or.inr (Or.inl rfl)
    | some sb =>
      refine Or.inr (Or.inr ⟨sb, rfl, ?_⟩)
      exact hpt.2 x y q sb hq (agree_getCell hag hs)
  · -- west
    rw [fit_clause_some_true_iff]
    by_cases hx0 : x = 0
    · exact Or.inl (by simp [hx0])
    · cases hw : getCell b (x - 1) y with
      | none => exact Or.inr (Or.inl rfl)
      | some wb =>
        refine Or.inr (Or.inr ⟨wb, rfl, ?_⟩)
        have hTw : getCell T (x - 1) y = some wb := agree_getCell hag hw
        have : «matches» wb.e = some q.w := by
          have := hpt.1 (x - 1) y wb q hTw (by rwa [Nat.sub_add_cancel (Nat.one_le_iff_ne_zero.mpr hx0)])
          exact this
        exact matches_involutive this

/-- The one-step completeness argument: a state with a completion and
at least one empty cell generates a child that still has that
completion. -/
lemma completes_child {wb T : Board} {wps : List Piece}
    (hcomp : Completes T wb wps) (hcnt : 1 ≤ count_empty wb) :
    ∃ x y q p, next_free wb = some (x, y) ∧
      (p, wps.erase p) ∈ next_piece wps ∧ q ∈ orientations p ∧
      check_piece_fits wb q x y = some true ∧
      Completes T (setCell wb x y q) (wps.erase p) := by
  obtain ⟨hag, hfull, hedge, qs, hall, hperm⟩ := hcomp
  obtain ⟨⟨x, y⟩, hnf⟩ := next_free_isSome_of_count hcnt
  obtain ⟨q, hTq, hnc, hag'⟩ := new_cells_head hag hfull hnf
  rw [hnc] at hall
  cases hall with
  | cons hhead htail =>
    rename_i p qs'
    have hp : p ∈ wps := hperm.mem_iff.mp (List.mem_cons_self _ _)
    have hqs' : qs'.Perm (wps.erase p) :=
      (List.cons_perm_iff_perm_erase.mp hperm).2
    refine ⟨x, y, q, p, hnf, next_piece_complete wps p hp, hhead, ?_, ?_⟩
    · exact check_of_tiling hag ((edges_okb_iff_pt T).mp hedge) hTq
    · exact ⟨hag', hfull, hedge, qs', htail, hqs'⟩

/-- A completion of an accepted (empty-pool) state is that state's
board itself. -/
lemma completes_accept {T cb : Board} {cps : List Piece}
    (hcomp : Completes T cb cps) (hacc : accept cb cps = true) : cb = T := by
  obtain ⟨hag, hfull, hedge, qs, hall, hperm⟩ := hcomp
  have hnil : cps = [] := by
    rw [accept] at hacc
    simp only [beq_iff_eq] at hacc
    exact List.length_eq_zero.mp hacc
  subst hnil
  have hqs : qs = [] := hperm.eq_nil
  subst hqs
  exact new_cells_nil_eq hag hfull (List.forall₂_nil_right_iff.mp hall)

lemma found_boards_of_mem {st : LoopState} {T : Board} {n k : Nat}
    (h : (T, n, k) ∈ st.found) : T ∈ found_boards st :=
  List.mem_map.mpr ⟨(T, n, k), h, rfl⟩

lemma found_boards_elim {st : LoopState} {T : Board}
    (h : T ∈ found_boards st) : ∃ n k, (T, n, k) ∈ st.found := by
  obtain ⟨⟨b, n, k⟩, hmem, heq⟩ := List.mem_map.mp h
  simp only at heq
  subst heq
  exact ⟨n, k, hmem⟩

/-- Exhaustiveness master: any completion of a frontier state (or any
already-yielded board) is among the yielded boards of a sufficiently
fuelled, well-formed run. -/
lemma solveFuel_exhaustive : ∀ (fuel : Nat) (st : LoopState) (T : Board),
    measureWL st.worklist ≤ fuel →
    (∀ s ∈ st.worklist, GoodState s) →
    ((∃ s ∈ st.worklist, Completes T s.1 s.2) ∨ T ∈ found_boards st) →
    T ∈ found_boards (solveFuel fuel st).1 := by
  intro fuel
  induction fuel with
  | zero =>
    intro st T hm _hg hsrc
    cases hwl : st.worklist with
    | nil =>
      rw [solveFuel_empty hwl]
      rcases hsrc with ⟨s, hs, -⟩ | h
      · rw [hwl] at hs; cases hs
      · exact h
    | cons s rest =>
      obtain ⟨wb, wps⟩ := s
      rw [hwl, measureWL_cons] at hm
      have := pw_pos wps.length
      omega
  | succ fuel' ih =>
    intro st T hm hg hsrc
    cases hwl : st.worklist with
    | nil =>
      rw [solveFuel_empty hwl]
      rcases hsrc with ⟨s, hs, -⟩ | h
      · rw [hwl] at hs; cases hs
      · exact h
    | cons s rest =>
      obtain ⟨wb, wps⟩ := s
      have hgs : GoodState (wb, wps) := hg _ (hwl ▸ List.mem_cons_self _ _)
      rw [solveFuel_cons hwl, solve_step_eq]
      simp only [good_flag hgs, if_true]
      apply ih
      · have hlt := step_measure_lt wb wps { st with worklist := rest }
        rw [hwl, measureWL_cons] at hm
        simp only at hlt
        omega
      · intro s' hs'
        rcases pc_worklist_sound _ _ s' hs' with h | ⟨h1, h2⟩
        · exact hg s' (by rw [hwl]; exact List.mem_cons_of_mem _ h)
        · exact good_child hgs h1 h2
      · -- transport the completion source one step
        rcases hsrc with ⟨s, hs, hcomp⟩ | h
        · rw [hwl] at hs
          rcases List.mem_cons.mp hs with heq | hmem
          · -- the expanded state itself carries the completion
            subst heq
            obtain ⟨ha, -, hcnt⟩ := hgs
            dsimp only at ha hcnt
            obtain ⟨x, y, q, p, hnf, hpr, hq, hchk, hcomp'⟩ :=
              completes_child hcomp hcnt
            have hcmem : (setCell wb x y q, wps.erase p) ∈ (possible_moves wb wps).1 :=
              possible_moves_complete hnf ha hpr hq hchk
            by_cases hacc : accept (setCell wb x y q) (wps.erase p) = true
            · have hTeq : setCell wb x y q = T := completes_accept hcomp' hacc
              obtain ⟨n, k, hfmem⟩ :=
                pc_found_complete (possible_moves wb wps).1
                  { st with worklist := rest } _ hcmem hacc
              exact Or.inr (found_boards_of_mem (hTeq ▸ hfmem))
            · refine Or.inl ⟨(setCell wb x y q, wps.erase p), ?_, hcomp'⟩
              exact pc_worklist_complete _ _ _ hcmem (Bool.of_not_eq_true hacc)
          · refine Or.inl ⟨s, ?_, hcomp⟩
            exact pc_worklist_super _ _ s hmem
        · obtain ⟨n, k, hfmem⟩ := found_boards_elim h
          exact Or.inr (found_boards_of_mem
            (pc_found_super (possible_moves wb wps).1 { st with worklist := rest } _ hfmem))

/-! ### The reachability invariant for the scan-safety claim -/

/-- Every state ever on the frontier of a well-seeded run has as many
empty cells as pool pieces, and a non-empty pool. -/
lemma reachable_inv {b : Board} {ps : List Piece}
    (hne : 1 ≤ count_empty b) (hcnt : count_empty b = ps.length) :
    ∀ st : LoopState, Reachable b ps st →
      ∀ s ∈ st.worklist, count_empty s.1 = s.2.length ∧ 1 ≤ s.2.length := by
  intro st hreach
  induction hreach with
  | init =>
    intro s hs
    simp only [initState, List.mem_singleton] at hs
    subst hs
    refine ⟨hcnt, ?_⟩
    dsimp only
    omega
  | @step st' wb wps rest _hr hwl ih =>
    intro s hs
    rw [solve_step_eq] at hs
    simp only at hs
    rcases pc_worklist_sound _ _ s hs with h | ⟨h1, h2⟩
    · exact ih s (by rw [hwl]; exact List.mem_cons_of_mem _ h)
    · have hparent := ih (wb, wps) (by rw [hwl]; exact List.mem_cons_self _ _)
      obtain ⟨-, hlen, hcount⟩ := child_shape h1
      have hne2 : s.2.length ≠ 0 := by
        intro h0
        rw [accept, h0] at h2
        cases h2
      dsimp only at hparent
      refine ⟨by omega, by omega⟩

/-! ## Claim theorems -/

/-- C5: for every 4-symbol piece, `orientations` returns a sequence of
exactly 8 values (duplicates retained), and applying `rotate_piece`
four times to any 4-symbol piece returns that same piece (rotation is
cyclic of order 4). -/
theorem claim_C5_orientations_eight_and_rotate_order_four (p : Piece) :
    (orientations p).length = 8 ∧
      rotate_piece (rotate_piece (rotate_piece (rotate_piece p))) = p :=
  ⟨rfl, rfl⟩

/-- C6: for every 4-symbol piece `p`, `piece_identity` is idempotent,
and `piece_identity` is invariant across all 8 orientations of the
same physical piece. -/
theorem claim_C6_piece_identity_idempotent_and_invariant (p : Piece) :
    piece_identity (piece_identity p) = piece_identity p ∧
      ∀ q ∈ orientations p, piece_identity q = piece_identity p := by
  have inv : ∀ q ∈ orientations p, piece_identity q = piece_identity p := fun q hq =>
    piece_identity_eq_of_mem_iff (orientations_mem_invariant hq)
  exact ⟨inv _ (piece_identity_mem p), inv⟩

/-- Witness for C6 at the concrete piece `EAGB` and its orientation
`AGBE`. -/
theorem claim_C6_witness :
    ((⟨'A', 'G', 'B', 'E'⟩ : Piece) ∈ orientations ⟨'E', 'A', 'G', 'B'⟩) ∧
      piece_identity (⟨'A', 'G', 'B', 'E'⟩ : Piece) = piece_identity ⟨'E', 'A', 'G', 'B'⟩ :=
  ⟨by decide,
    (claim_C6_piece_identity_idempotent_and_invariant ⟨'E', 'A', 'G', 'B'⟩).2 _ (by decide)⟩

/-- C7: for every board, every candidate piece whose symbols are in
the alphabet, and every in-bounds position, `check_piece_fits` accepts
exactly when each of the four directions is a grid boundary, an empty
neighbor, or a placed neighbor whose touching edge symbol is the
complement of the candidate's edge symbol on that side. -/
theorem claim_C7_check_piece_fits_iff (b : Board) (p : Piece) (x y : Nat)
    (_halpha : alphaPiece p = true) (_hy : y < b.length)
    (_hx : x < (b.getD y []).length) :
    check_piece_fits b p x y = some true ↔
      ((y = 0 ∨ getCell b x (y - 1) = none ∨
          (∃ nb, getCell b x (y - 1) = some nb ∧ «matches» p.n = some nb.s)) ∧
       (x = (b.getD y []).length - 1 ∨ getCell b (x + 1) y = none ∨
          (∃ eb, getCell b (x + 1) y = some eb ∧ «matches» p.e = some eb.w)) ∧
       (y = b.length - 1 ∨ getCell b x (y + 1) = none ∨
          (∃ sb, getCell b x (y + 1) = some sb ∧ «matches» p.s = some sb.n)) ∧
       (x = 0 ∨ getCell b (x - 1) y = none ∨
          (∃ wb, getCell b (x - 1) y = some wb ∧ «matches» p.w = some wb.e))) := by
  rw [check_some_true_iff]
  simp only [fit_clause_some_true_iff, beq_iff_eq]

/-- Witness for C7: an alphabet piece placed beside one compatible
neighbor on a 1-by-2 board. -/
theorem claim_C7_witness :
    alphaPiece ⟨'A', 'C', 'E', 'D'⟩ = true ∧
      (0 : Nat) < ([[some (⟨'A', 'C', 'E', 'G'⟩ : Piece), none]] : Board).length ∧
      (1 : Nat) < (([[some (⟨'A', 'C', 'E', 'G'⟩ : Piece), none]] : Board).getD 0 []).length ∧
      check_piece_fits [[some ⟨'A', 'C', 'E', 'G'⟩, none]] ⟨'A', 'C', 'E', 'D'⟩ 1 0 = some true := by
  refine ⟨by decide, by decide, by decide, ?_⟩
  refine (claim_C7_check_piece_fits_iff _ _ 1 0 (by decide) (by decide) (by decide)).mpr ?_
  refine ⟨Or.inl rfl, Or.inl (by decide), Or.inl (by decide), ?_⟩
  exact Or.inr (Or.inr ⟨⟨'A', 'C', 'E', 'G'⟩, by decide, by decide⟩)

/-- C8: every child board generated by `possible_moves` is the parent
board with exactly one cell changed — the first empty cell in
row-major order, which now holds the placed orientation; every other
cell reads identically (and in this value-level embedding the parent
board and pool are never modified). -/
theorem claim_C8_possible_moves_single_cell_update (b : Board) (ps : List Piece)
    (c : Board × List Piece) (hc : c ∈ (possible_moves b ps).1) :
    ∃ x y q, next_free b = some (x, y) ∧ getCell b x y = none ∧
      (∀ x' < x, getCell b x' y ≠ none) ∧
      (∀ y' < y, ∀ x' < (b.getD y' []).length, getCell b x' y' ≠ none) ∧
      getCell c.1 x y = some q ∧
      (∀ x' y', ¬(x' = x ∧ y' = y) → getCell c.1 x' y' = getCell b x' y') := by
  obtain ⟨x, y, hnf, p, l', _hpr, q, _hq, _hchk, hceq⟩ := possible_moves_sound hc
  obtain ⟨hy, hx, hemp, hfirst_x, hfirst_y⟩ := next_free_spec hnf
  have hc1 : c.1 = setCell b x y q := by rw [hceq]
  refine ⟨x, y, q, hnf, hemp, hfirst_x, hfirst_y, ?_, ?_⟩
  · rw [hc1]
    exact getCell_set_self hy hx
  · intro x' y' hne
    rw [hc1]
    apply getCell_set_other
    by_cases hx' : x' = x
    · subst hx'
      exact Or.inr (fun hy' => hne ⟨rfl, hy'⟩)
    · exact Or.inl hx'

/-- Witness for C8: the single child obtained by placing the only pool
piece on a 1-by-1 board. -/
theorem claim_C8_witness :
    (( [[some (⟨'A', 'A', 'A', 'A'⟩ : Piece)]], ([] : List Piece)) ∈
        (possible_moves [[none]] [⟨'A', 'A', 'A', 'A'⟩]).1) ∧
      (∃ x y q, next_free [[none]] = some (x, y) ∧
        getCell [[none]] x y = none ∧
        (∀ x' < x, getCell [[none]] x' y ≠ none) ∧
        (∀ y' < y, ∀ x' < (([[none]] : Board).getD y' []).length,
          getCell [[none]] x' y' ≠ none) ∧
        getCell [[some (⟨'A', 'A', 'A', 'A'⟩ : Piece)]] x y = some q ∧
        (∀ x' y', ¬(x' = x ∧ y' = y) →
          getCell [[some (⟨'A', 'A', 'A', 'A'⟩ : Piece)]] x' y' = getCell [[none]] x' y')) :=
  ⟨by decide,
    claim_C8_possible_moves_single_cell_update [[none]] [⟨'A', 'A', 'A', 'A'⟩]
      ([[some ⟨'A', 'A', 'A', 'A'⟩]], []) (by decide)⟩

/-- C1 counterexample: starting from a board whose two already-placed
pieces violate the edge rule, with one empty cell and a one-piece
pool, `solve` terminates normally and yields a completely filled board
whose adjacent edges are *not* all complementary — so the claim as
stated (for arbitrary starting boards) is false. -/
theorem claim_C1_counterexample :
    count_empty [[some (⟨'A', 'A', 'A', 'A'⟩ : Piece), some ⟨'A', 'A', 'A', 'A'⟩, none]] =
        [(⟨'A', 'A', 'A', 'B'⟩ : Piece)].length ∧
      ([[some (⟨'A', 'A', 'A', 'A'⟩ : Piece), some ⟨'A', 'A', 'A', 'A'⟩, some ⟨'A', 'A', 'A', 'B'⟩]] ∈
        found_boards (solve [[some ⟨'A', 'A', 'A', 'A'⟩, some ⟨'A', 'A', 'A', 'A'⟩, none]]
          [⟨'A', 'A', 'A', 'B'⟩]).1) ∧
      edges_okb [[some (⟨'A', 'A', 'A', 'A'⟩ : Piece), some ⟨'A', 'A', 'A', 'A'⟩, some ⟨'A', 'A', 'A', 'B'⟩]] = false ∧
      (solve [[some (⟨'A', 'A', 'A', 'A'⟩ : Piece), some ⟨'A', 'A', 'A', 'A'⟩, none]]
          [⟨'A', 'A', 'A', 'B'⟩]).2 = SolveOutcome.finished := by
  refine ⟨by decide, by decide, by decide, by decide⟩

/-- C1 (amended): when additionally the starting board itself has all
adjacent placed edges complementary, every tuple yielded by `solve`
from a board with as many empty cells as pool pieces carries a
completely filled board whose adjacent edges are all complementary
(the yielded state's pool is empty by the acceptance test itself). -/
theorem claim_C1_amended_solve_sound (b : Board) (ps : List Piece)
    (hedges : edges_okb b = true) (hcnt : count_empty b = ps.length) :
    ∀ f ∈ (solve b ps).1.found, board_full f.1 = true ∧ edges_okb f.1 = true := by
  intro f hf
  have hSound : ∀ s ∈ (initState b ps).worklist, SoundState s := by
    intro s hs
    simp only [initState, List.mem_singleton] at hs
    subst hs
    exact ⟨(edges_okb_iff_pt b).mp hedges, hcnt⟩
  exact solveFuel_sound (measureWL [(b, ps)]) (initState b ps) hSound
    (by intro f' hf'; cases hf') f hf

/-- Witness for the amended C1 on the empty 1-by-1 board with a
single pool piece. -/
theorem claim_C1_amended_witness :
    edges_okb [[none]] = true ∧
      count_empty [[none]] = [(⟨'A', 'A', 'A', 'A'⟩ : Piece)].length ∧
      (([[some (⟨'A', 'A', 'A', 'A'⟩ : Piece)]], 1, 0) ∈
        (solve [[none]] [⟨'A', 'A', 'A', 'A'⟩]).1.found) ∧
      board_full [[some (⟨'A', 'A', 'A', 'A'⟩ : Piece)]] = true ∧
      edges_okb [[some (⟨'A', 'A', 'A', 'A'⟩ : Piece)]] = true := by
  refine ⟨by decide, by decide, by decide, ?_⟩
  exact claim_C1_amended_solve_sound [[none]] [⟨'A', 'A', 'A', 'A'⟩] (by decide) (by decide)
    ([[some ⟨'A', 'A', 'A', 'A'⟩]], 1, 0) (by decide)

/-- C3 counterexample: with the tracked best state holding one
remaining piece, a generated child that also has one remaining piece
(a tie) *overwrites* the tracker — the earlier-tracked board is not
kept, so the claim as stated is false. -/
theorem claim_C3_counterexample :
    (processChildren [([[some (⟨'A', 'A', 'A', 'A'⟩ : Piece)]], [⟨'C', 'C', 'C', 'C'⟩])]
        { worklist := []
          min_board := [[none]]
          min_pieces := [⟨'E', 'E', 'E', 'E'⟩]
          n_explored := 0
          found := [] }).min_board = [[some (⟨'A', 'A', 'A', 'A'⟩ : Piece)]] ∧
      ([[some (⟨'A', 'A', 'A', 'A'⟩ : Piece)]] : Board) ≠ [[none]] := by
  refine ⟨by decide, by decide⟩

/-- C3 (amended): the tracker is updated exactly when the child has at
most as many remaining pieces as the tracked best (the source compares
with `<=`), so on a tie the later child replaces the earlier-tracked
state. -/
theorem claim_C3_amended_tracker_updates_on_le (nb : Board) (nps : List Piece)
    (cs : List (Board × List Piece)) (st : LoopState)
    (hacc : accept nb nps = false) :
    processChildren ((nb, nps) :: cs) st =
      (if nps.length ≤ st.min_pieces.length then
        processChildren cs
          { st with
            worklist := (nb, nps) :: st.worklist
            n_explored := st.n_explored + 1
            min_board := nb
            min_pieces := nps }
      else
        processChildren cs
          { st with
            worklist := (nb, nps) :: st.worklist
            n_explored := st.n_explored + 1 }) := by
  simp only [processChildren, hacc, Bool.false_eq_true, if_false]

/-- Witness for the amended C3: a tie updates the tracker to the later
state. -/
theorem claim_C3_amended_witness :
    accept [[some (⟨'A', 'A', 'A', 'A'⟩ : Piece)]] [⟨'C', 'C', 'C', 'C'⟩] = false ∧
      processChildren [([[some (⟨'A', 'A', 'A', 'A'⟩ : Piece)]], [⟨'C', 'C', 'C', 'C'⟩])]
          { worklist := []
            min_board := [[none]]
            min_pieces := [⟨'E', 'E', 'E', 'E'⟩]
            n_explored := 0
            found := [] } =
        (if [(⟨'C', 'C', 'C', 'C'⟩ : Piece)].length ≤
            [(⟨'E', 'E', 'E', 'E'⟩ : Piece)].length then
          processChildren []
            { worklist := [([[some (⟨'A', 'A', 'A', 'A'⟩ : Piece)]], [⟨'C', 'C', 'C', 'C'⟩])]
              min_board := [[some (⟨'A', 'A', 'A', 'A'⟩ : Piece)]]
              min_pieces := [⟨'C', 'C', 'C', 'C'⟩]
              n_explored := 1
              found := [] }
        else
          processChildren []
            { worklist := [([[some (⟨'A', 'A', 'A', 'A'⟩ : Piece)]], [⟨'C', 'C', 'C', 'C'⟩])]
              min_board := [[none]]
              min_pieces := [⟨'E', 'E', 'E', 'E'⟩]
              n_explored := 1
              found := [] }) :=
  ⟨by decide,
    claim_C3_amended_tracker_updates_on_le [[some ⟨'A', 'A', 'A', 'A'⟩]] [⟨'C', 'C', 'C', 'C'⟩]
      [] _ (by decide)⟩

/-- C2 counterexample: a pool containing symbols outside the alphabet
admits a complete valid tiling (the out-of-alphabet symbols all end up
on the boundary), yet the run dies with an uncaught `KeyError` before
yielding it — so exhaustiveness over *every* initial state is false. -/
theorem claim_C2_counterexample :
    Completes [[some (⟨'Z', 'A', 'Z', 'Z'⟩ : Piece), some ⟨'Z', 'Z', 'Z', 'B'⟩]]
        [[none, none]] [⟨'Z', 'A', 'Z', 'Z'⟩, ⟨'Z', 'Z', 'Z', 'B'⟩] ∧
      ([[some (⟨'Z', 'A', 'Z', 'Z'⟩ : Piece), some ⟨'Z', 'Z', 'Z', 'B'⟩]] ∉
        found_boards (solve [[none, none]] [⟨'Z', 'A', 'Z', 'Z'⟩, ⟨'Z', 'Z', 'Z', 'B'⟩]).1) ∧
      (solve [[none, none]] [⟨'Z', 'A', 'Z', 'Z'⟩, ⟨'Z', 'Z', 'Z', 'B'⟩]).2 =
        SolveOutcome.crashed := by
  refine ⟨⟨?_, by decide, by decide, ?_⟩, by decide, by decide⟩
  · exact List.Forall₂.cons
      (List.Forall₂.cons (Or.inl rfl) (List.Forall₂.cons (Or.inl rfl) List.Forall₂.nil))
      List.Forall₂.nil
  · refine ⟨[⟨'Z', 'A', 'Z', 'Z'⟩, ⟨'Z', 'Z', 'Z', 'B'⟩], ?_, List.Perm.refl _⟩
    show List.Forall₂ _ [(⟨'Z', 'A', 'Z', 'Z'⟩ : Piece), ⟨'Z', 'Z', 'Z', 'B'⟩] _
    exact List.Forall₂.cons (by decide) (List.Forall₂.cons (by decide) List.Forall₂.nil)

/-- C2 (amended): from any initial state whose pool pieces use only
alphabet symbols, whose board still has an empty cell, and whose pool
is no larger than the number of empty cells, `solve` yields every
complete valid tiling reachable from that state and then terminates
with an exhausted frontier. -/
theorem claim_C2_amended_solve_exhaustive (b : Board) (ps : List Piece) (T : Board)
    (halpha : ∀ p ∈ ps, alphaPiece p = true)
    (hne : 1 ≤ count_empty b) (hle : ps.length ≤ count_empty b)
    (hT : Completes T b ps) :
    T ∈ found_boards (solve b ps).1 ∧ (solve b ps).2 = SolveOutcome.finished := by
  have hg : ∀ s ∈ (initState b ps).worklist, GoodState s := by
    intro s hs
    simp only [initState, List.mem_singleton] at hs
    subst hs
    exact ⟨halpha, hle, hne⟩
  constructor
  · exact solveFuel_exhaustive _ _ T (Nat.le_refl _) hg
      (Or.inl ⟨(b, ps), by simp [initState], hT⟩)
  · exact solveFuel_finished _ _ (Nat.le_refl _) hg

/-- Witness for the amended C2: a 1-by-2 board with a two-piece
alphabet pool and its valid tiling, which the run does yield before
finishing. -/
theorem claim_C2_amended_witness :
    (∀ p ∈ [(⟨'C', 'A', 'C', 'C'⟩ : Piece), ⟨'D', 'B', 'D', 'D'⟩], alphaPiece p = true) ∧
      1 ≤ count_empty [[none, none]] ∧
      [(⟨'C', 'A', 'C', 'C'⟩ : Piece), ⟨'D', 'B', 'D', 'D'⟩].length ≤ count_empty [[none, none]] ∧
      Completes [[some (⟨'C', 'A', 'C', 'C'⟩ : Piece), some ⟨'D', 'D', 'D', 'B'⟩]]
        [[none, none]] [⟨'C', 'A', 'C', 'C'⟩, ⟨'D', 'B', 'D', 'D'⟩] ∧
      ([[some (⟨'C', 'A', 'C', 'C'⟩ : Piece), some ⟨'D', 'D', 'D', 'B'⟩]] ∈
        found_boards (solve [[none, none]] [⟨'C', 'A', 'C', 'C'⟩, ⟨'D', 'B', 'D', 'D'⟩]).1) ∧
      (solve [[none, none]] [⟨'C', 'A', 'C', 'C'⟩, ⟨'D', 'B', 'D', 'D'⟩]).2 =
        SolveOutcome.finished := by
  have hcomp : Completes [[some (⟨'C', 'A', 'C', 'C'⟩ : Piece), some ⟨'D', 'D', 'D', 'B'⟩]]
      [[none, none]] [⟨'C', 'A', 'C', 'C'⟩, ⟨'D', 'B', 'D', 'D'⟩] := by
    refine ⟨?_, by decide, by decide, ?_⟩
    · exact List.Forall₂.cons
        (List.Forall₂.cons (Or.inl rfl) (List.Forall₂.cons (Or.inl rfl) List.Forall₂.nil))
        List.Forall₂.nil
    · refine ⟨[⟨'C', 'A', 'C', 'C'⟩, ⟨'D', 'B', 'D', 'D'⟩], ?_, List.Perm.refl _⟩
      show List.Forall₂ _ [(⟨'C', 'A', 'C', 'C'⟩ : Piece), ⟨'D', 'D', 'D', 'B'⟩] _
      exact List.Forall₂.cons (by decide) (List.Forall₂.cons (by decide) List.Forall₂.nil)
  have hmain := claim_C2_amended_solve_exhaustive [[none, none]]
    [⟨'C', 'A', 'C', 'C'⟩, ⟨'D', 'B', 'D', 'D'⟩]
    [[some ⟨'C', 'A', 'C', 'C'⟩, some ⟨'D', 'D', 'D', 'B'⟩]]
    (by decide) (by decide) (by decide) hcomp
  exact ⟨by decide, by decide, by decide, hcomp, hmain.1, hmain.2⟩

/-- C4 counterexample: a piece made of the out-of-alphabet symbol `Z`
is canonicalized by `piece_identity` without any error being
signalled, while the `«matches»` lookup on `Z` is undefined — the
failure surfaces only inside `check_piece_fits` during the search. -/
theorem claim_C4_counterexample :
    «matches» 'Z' = none ∧
      piece_identity ⟨'Z', 'Z', 'Z', 'Z'⟩ = ⟨'Z', 'Z', 'Z', 'Z'⟩ ∧
      check_piece_fits [[some ⟨'A', 'A', 'A', 'A'⟩, none]] ⟨'Z', 'Z', 'Z', 'Z'⟩ 1 0 = none := by
  refine ⟨by decide, by decide, by decide⟩

/-- C4 (amended): the loader performs no validation: `piece_identity`
canonicalizes every piece (it always returns one of the 8
orientations, never signalling an error), and a symbol outside the
alphabet only causes a failed `«matches»` lookup inside
`check_piece_fits` during the search. -/
theorem claim_C4_amended_no_load_time_validation (p : Piece) :
    piece_identity p ∈ orientations p ∧
      («matches» 'Z' = none ∧
        check_piece_fits [[some ⟨'A', 'A', 'A', 'A'⟩, none]] ⟨'Z', 'Z', 'Z', 'Z'⟩ 1 0 = none) :=
  ⟨piece_identity_mem p, by decide, by decide⟩

/-- C9: if the initial board has at least one empty cell and the pool
has exactly as many pieces as there are empty cells, then the state at
the top of the frontier of any reachable loop state still has an empty
cell: `next_free` never returns `none` on a popped board. -/
theorem claim_C9_next_free_some_on_popped (b : Board) (ps : List Piece)
    (hne : 1 ≤ count_empty b) (hcnt : count_empty b = ps.length)
    (st : LoopState) (hreach : Reachable b ps st)
    (wb : Board) (wps : List Piece) (rest : List (Board × List Piece))
    (hwl : st.worklist = (wb, wps) :: rest) :
    next_free wb ≠ none := by
  have hinv := reachable_inv hne hcnt st hreach (wb, wps)
    (by rw [hwl]; exact List.mem_cons_self _ _)
  dsimp only at hinv
  intro hnone
  have := (next_free_none_iff wb).mp hnone
  omega

/-- Witness for C9 at the initial state of a 1-by-1 run. -/
theorem claim_C9_witness :
    1 ≤ count_empty [[none]] ∧
      count_empty [[none]] = [(⟨'A', 'A', 'A', 'A'⟩ : Piece)].length ∧
      next_free [[none]] ≠ none :=
  ⟨by decide, by decide,
    claim_C9_next_free_some_on_popped [[none]] [⟨'A', 'A', 'A', 'A'⟩] (by decide) (by decide)
      _ Reachable.init [[none]] [⟨'A', 'A', 'A', 'A'⟩] [] rfl⟩

/-- C10: from a board that still has an empty cell and an empty pool,
`solve` terminates normally and yields nothing: the root state is
never reported as a solution even though its pool is empty, because
an empty pool generates no children. -/
theorem claim_C10_empty_pool_yields_nothing (b : Board) (hne : 1 ≤ count_empty b) :
    (solve b []).1.found = [] ∧ (solve b []).2 = SolveOutcome.finished := by
  obtain ⟨xy, hnf⟩ := next_free_isSome_of_count hne
  have hpm : possible_moves b [] = ([], true) := by
    unfold possible_moves
    rw [hnf]
    rfl
  have hfuel : measureWL [(b, [])] = 1 := by simp [measureWL, pw]
  have hrun : solve b [] =
      ({ worklist := [], min_board := b, min_pieces := [], n_explored := 0, found := [] },
        SolveOutcome.finished) := by
    show solveFuel (measureWL [(b, [])]) (initState b []) = _
    rw [hfuel, solveFuel_cons rfl, solve_step_eq, hpm]
    simp only [processChildren, if_true]
    rw [solveFuel_empty rfl]
    rfl
  rw [hrun]
  exact ⟨rfl, rfl⟩

/-- Witness for C10 on the empty 1-by-1 board. -/
theorem claim_C10_witness :
    1 ≤ count_empty [[none]] ∧
      (solve [[none]] []).1.found = [] ∧
      (solve [[none]] []).2 = SolveOutcome.finished :=
  ⟨by decide, (claim_C10_empty_pool_yields_nothing [[none]] (by decide)).1,
    (claim_C10_empty_pool_yields_nothing [[none]] (by decide)).2⟩
